import Mathlib

/-!
Verification development for the late GC-root lowering pass
(src/llvm-late-gc-lowering.cpp). The C++ pass is embedded shallowly:
bitsets over identifiers become Finset over Nat, the per-block dataflow
state becomes explicit records, while loops become fueled recursion, and
assertion failures become Except errors. Machine integers that can wrap
are reduced modulo two to the word size at the points where the source
performs fixed-width arithmetic.
-/

namespace LateGC

/-- Address space numbering used by the surrounding codegen headers:
Tracked = 10, Derived = 11, CalleeRooted = 12; the special range is
[FirstSpecial, LastSpecial] = [10, 12]. -/
def ASTracked : Nat := 10

/-- Derived address space. -/
def ASDerived : Nat := 11

/-- First special address space (= Tracked). -/
def ASFirstSpecial : Nat := 10

/-- Last special address space (= CalleeRooted). -/
def ASLastSpecial : Nat := 12

/-- The ascending enumeration of the members of a bitset, as produced by
the BitVector find_first / find_next iteration idiom used throughout the
source. -/
def ascendingMembers (L : Finset Nat) : List Nat :=
  (List.range (L.fold max 0 id + 1)).filter (fun i => decide (i ∈ L))

theorem ascendingMembers_sorted (L : Finset Nat) :
    List.Sorted (· < ·) (ascendingMembers L) :=
  List.Pairwise.sublist (List.filter_sublist _) (List.pairwise_lt_range _)

theorem mem_ascendingMembers (L : Finset Nat) (i : Nat) :
    i ∈ ascendingMembers L ↔ i ∈ L := by
  unfold ascendingMembers
  rw [List.mem_filter]
  simp only [List.mem_range, decide_eq_true_eq]
  constructor
  · exact fun h => h.2
  · intro h
    refine ⟨?_, h⟩
    have : i ≤ L.fold max 0 id := (Finset.le_fold_max i).mpr (Or.inr ⟨i, h, le_refl i⟩)
    omega

/-! ## Live-set materialization and the refinement pass (ComputeLiveSets) -/

/-- One iteration of the refinement loop of ComputeLiveSets (source lines
914-921) at index i of the live set: look up the LoadRefinements entry; if
it is -1 (statically rooted) or currently a member of the live set, clear
bit i. -/
def refineStep (refs : Nat → Option Int) (L : Finset Nat) (i : Nat) : Finset Nat :=
  match refs i with
  | none => L
  | some r => if r = -1 ∨ (0 ≤ r ∧ r.toNat ∈ L) then L.erase i else L

/-- The refinement pass of ComputeLiveSets: a single traversal of the
members of the live set in ascending index order (find_first / find_next),
applying refineStep at each member. Clearing bit i never disturbs the
traversal of the remaining (strictly larger) members, so the visited
indices are exactly the members of the initial set, ascending. -/
def applyRefinements (refs : Nat → Option Int) (L : Finset Nat) : Finset Nat :=
  (ascendingMembers L).foldl (refineStep refs) L

/-- The live set assembled for one safepoint before the refinement pass
(source lines 898-913): the provisional set recorded during the local
scan, joined with LiveIn ∩ LiveOut of the parent block, joined with every
LiveIfLiveOut entry that is live-out of the block. -/
def preRefinementLiveSet (liveIn liveOut provisional : Finset Nat)
    (liveIfLiveOut : List Nat) : Finset Nat :=
  liveIfLiveOut.foldl (fun ls v => if v ∈ liveOut then insert v ls else ls)
    (provisional ∪ (liveIn ∩ liveOut))

/-- The live set finally recorded for one safepoint by ComputeLiveSets
(source lines 898-922). -/
def computeLiveSet (refs : Nat → Option Int) (liveIn liveOut provisional : Finset Nat)
    (liveIfLiveOut : List Nat) : Finset Nat :=
  applyRefinements refs (preRefinementLiveSet liveIn liveOut provisional liveIfLiveOut)

/-! ### Facts about the refinement pass -/

theorem refineStep_none (refs : Nat → Option Int) (L : Finset Nat) (i : Nat)
    (h : refs i = none) : refineStep refs L i = L := by
  unfold refineStep
  rw [h]

theorem refineStep_some (refs : Nat → Option Int) (L : Finset Nat) (i : Nat) (r : Int)
    (h : refs i = some r) :
    refineStep refs L i = if r = -1 ∨ (0 ≤ r ∧ r.toNat ∈ L) then L.erase i else L := by
  unfold refineStep
  rw [h]

theorem refineStep_subset (refs : Nat → Option Int) (L : Finset Nat) (i : Nat) :
    refineStep refs L i ⊆ L := by
  unfold refineStep
  cases refs i with
  | none => exact fun a ha => ha
  | some r =>
    by_cases h : r = -1 ∨ (0 ≤ r ∧ r.toNat ∈ L)
    · simp only [if_pos h]
      exact Finset.erase_subset _ _
    · simp only [if_neg h]
      exact fun a ha => ha

theorem refineStep_mem_of_ne (refs : Nat → Option Int) (L : Finset Nat) (i j : Nat)
    (hne : j ≠ i) : j ∈ refineStep refs L i ↔ j ∈ L := by
  unfold refineStep
  cases refs i with
  | none => exact Iff.rfl
  | some r =>
    by_cases h : r = -1 ∨ (0 ≤ r ∧ r.toNat ∈ L)
    · simp only [if_pos h, Finset.mem_erase]
      exact ⟨fun hj => hj.2, fun hj => ⟨hne, hj⟩⟩
    · simp only [if_neg h]

theorem foldl_refine_mem_of_not_mem (refs : Nat → Option Int) (l : List Nat)
    (L : Finset Nat) (j : Nat) (hj : j ∉ l) :
    j ∈ l.foldl (refineStep refs) L ↔ j ∈ L := by
  induction l generalizing L with
  | nil => exact Iff.rfl
  | cons a l ih =>
    have hja : j ≠ a := fun h => hj (h ▸ List.mem_cons_self a l)
    have hjl : j ∉ l := fun h => hj (List.mem_cons_of_mem a h)
    rw [List.foldl_cons, ih _ hjl, refineStep_mem_of_ne refs L a j hja]

theorem foldl_refine_subset (refs : Nat → Option Int) (l : List Nat) (L : Finset Nat) :
    l.foldl (refineStep refs) L ⊆ L := by
  induction l generalizing L with
  | nil => exact fun a ha => ha
  | cons a l ih =>
    exact fun x hx => refineStep_subset refs L a ((ih (refineStep refs L a)) hx)

theorem subset_foldl_insertIf (liveOut : Finset Nat) (l : List Nat) (S : Finset Nat) :
    S ⊆ l.foldl (fun ls v => if v ∈ liveOut then insert v ls else ls) S := by
  induction l generalizing S with
  | nil => exact fun a ha => ha
  | cons a l ih =>
    intro x hx
    rw [List.foldl_cons]
    refine ih _ ?_
    by_cases h : a ∈ liveOut
    · simp only [if_pos h]; exact Finset.mem_insert_of_mem hx
    · simp only [if_neg h]; exact hx

/-- Claim C2 (amended): for every safepoint, the live set assembled before
the refinement pass is a superset of LiveIn ∩ LiveOut of its parent
block. -/
theorem preRefinement_superset_liveAcross (liveIn liveOut provisional : Finset Nat)
    (lilo : List Nat) :
    liveIn ∩ liveOut ⊆ preRefinementLiveSet liveIn liveOut provisional lilo := by
  intro x hx
  unfold preRefinementLiveSet
  exact subset_foldl_insertIf liveOut lilo _ (Finset.mem_union_right _ hx)

/-- Claim C2 counterexample: with a refinement entry 0 ↦ -1, identifier 0
is live across its block (LiveIn = LiveOut = {0}) yet is removed from the
finally recorded live set by the refinement pass, so the recorded live set
is not a superset of LiveIn ∩ LiveOut. -/
theorem computeLiveSet_superset_counterexample :
    ¬ (({0} : Finset Nat) ∩ {0} ⊆
        computeLiveSet (fun i => if i = 0 then some (-1) else none) {0} {0} {0} []) := by
  decide

/-- Claim C4: single-pass characterization of the refinement loop. An
identifier i survives the pass iff it was in the initial live set and its
refinement entry (when present) neither equals -1 nor points at an
identifier that is a member of the live set at the moment i is processed:
indices below i have already reached their final value, indices at or
above i still hold their initial value. -/
theorem applyRefinements_mem_iff (refs : Nat → Option Int) (L : Finset Nat) (i : Nat) :
    i ∈ applyRefinements refs L ↔
      i ∈ L ∧ ∀ r, refs i = some r →
        ¬ (r = -1 ∨ (0 ≤ r ∧
            r.toNat ∈ (if r.toNat < i then applyRefinements refs L else L))) := by
  by_cases hiL : i ∈ L
  case neg =>
    have h1 : i ∉ applyRefinements refs L := fun h => hiL (foldl_refine_subset _ _ _ h)
    simp only [h1, hiL, false_and, iff_false]
  case pos =>
    have hmem : i ∈ ascendingMembers L := (mem_ascendingMembers L i).mpr hiL
    obtain ⟨s, t, hst⟩ := List.append_of_mem hmem
    have hsorted : List.Sorted (· < ·) (ascendingMembers L) := ascendingMembers_sorted L
    rw [hst] at hsorted
    have hpw := List.pairwise_append.mp hsorted
    have hs_lt : ∀ x ∈ s, x < i := fun x hx => hpw.2.2 x hx i (List.mem_cons_self i t)
    have ht_gt : ∀ y ∈ t, i < y := fun y hy => (List.pairwise_cons.mp hpw.2.1).1 y hy
    have hi_s : i ∉ s := fun h => lt_irrefl i (hs_lt i h)
    have hi_t : i ∉ t := fun h => lt_irrefl i (ht_gt i h)
    have hres : applyRefinements refs L
        = (i :: t).foldl (refineStep refs) (s.foldl (refineStep refs) L) := by
      unfold applyRefinements
      rw [hst, List.foldl_append]
    set M := s.foldl (refineStep refs) L with hM
    have hiM : i ∈ M ↔ i ∈ L := foldl_refine_mem_of_not_mem refs s L i hi_s
    have hit : i ∈ applyRefinements refs L ↔ i ∈ refineStep refs M i := by
      rw [hres, List.foldl_cons]
      exact foldl_refine_mem_of_not_mem refs t _ i hi_t
    have htrans : ∀ r : Int, 0 ≤ r →
        (r.toNat ∈ M ↔ r.toNat ∈ (if r.toNat < i then applyRefinements refs L else L)) := by
      intro r _
      by_cases hlt : r.toNat < i
      · rw [if_pos hlt, hres]
        have hnot : r.toNat ∉ i :: t := by
          intro h
          rcases List.mem_cons.mp h with h | h
          · exact absurd h (Nat.ne_of_lt hlt)
          · exact absurd hlt (Nat.lt_asymm (ht_gt _ h))
        exact (foldl_refine_mem_of_not_mem refs (i :: t) M r.toNat hnot).symm
      · rw [if_neg hlt]
        have hnot : r.toNat ∉ s := fun h => hlt (hs_lt _ h)
        exact foldl_refine_mem_of_not_mem refs s L r.toNat hnot
    rw [hit]
    cases hr : refs i with
    | none =>
      rw [refineStep_none refs M i hr]
      constructor
      · intro hmem2
        exact ⟨hiM.mp hmem2, fun r hco => Option.noConfusion hco⟩
      · intro hand
        exact hiM.mpr hand.1
    | some r =>
      rw [refineStep_some refs M i r hr]
      have hcnd : (r = -1 ∨ (0 ≤ r ∧ r.toNat ∈ M)) ↔
          (r = -1 ∨ (0 ≤ r ∧
            r.toNat ∈ (if r.toNat < i then applyRefinements refs L else L))) := by
        constructor
        · rintro (h | ⟨h0, hm⟩)
          · exact Or.inl h
          · exact Or.inr ⟨h0, (htrans r h0).mp hm⟩
        · rintro (h | ⟨h0, hm⟩)
          · exact Or.inl h
          · exact Or.inr ⟨h0, (htrans r h0).mpr hm⟩
      by_cases hc : r = -1 ∨ (0 ≤ r ∧ r.toNat ∈ M)
      · rw [if_pos hc]
        constructor
        · intro hmem2
          exact absurd hmem2 (Finset.not_mem_erase i M)
        · rintro ⟨-, hall⟩
          exact absurd (hcnd.mp hc) (hall r rfl)
      · rw [if_neg hc]
        constructor
        · intro hmem2
          refine ⟨hiM.mp hmem2, ?_⟩
          intro r2 hr2
          injection hr2 with hr2
          subst hr2
          exact fun h2 => hc (hcnd.mpr h2)
        · intro hand
          exact hiM.mpr hand.1

/-! ## Iterative dataflow (ComputeLiveness, source lines 833-881) -/

/-- The per-block bitsets recorded by the local scan and not updated
afterwards (BBState, source lines 213-236, first group). -/
structure BBStatic where
  Defs : Finset Nat
  UpExposedUses : Finset Nat
  UpExposedUsesUnrooted : Finset Nat
  DownExposedUnrooted : Finset Nat
  PhiOuts : Finset Nat
  HasSafepoint : Bool
deriving DecidableEq

/-- The per-block bitsets updated during dataflow (BBState, second
group). -/
structure BBDyn where
  LiveIn : Finset Nat
  LiveOut : Finset Nat
  UnrootedIn : Finset Nat
  UnrootedOut : Finset Nat
deriving DecidableEq

/-- The control-flow graph seen by ComputeLiveness: per-block static
bitsets, successor and predecessor lists, and the reverse-postorder
traversal the pass iterates over. -/
structure CFG (nb : Nat) where
  static : Fin nb → BBStatic
  succs : Fin nb → List (Fin nb)
  preds : Fin nb → List (Fin nb)
  rpot : List (Fin nb)

variable {nb : Nat}

/-- NewLiveOut of a block: PhiOuts joined with LiveIn of every
successor. -/
def liveOutF (G : CFG nb) (dyn : Fin nb → BBDyn) (b : Fin nb) : Finset Nat :=
  (G.succs b).foldl (fun acc s2 => acc ∪ (dyn s2).LiveIn) (G.static b).PhiOuts

/-- NewLiveIn of a block: upward-exposed uses joined with NewLiveOut minus
Defs. -/
def liveInF (G : CFG nb) (dyn : Fin nb → BBDyn) (b : Fin nb) : Finset Nat :=
  (G.static b).UpExposedUses ∪ (G.static b).UpExposedUsesUnrooted ∪
    (liveOutF G dyn b \ (G.static b).Defs)

/-- NewUnrootedIn of a block: the join of UnrootedOut over all
predecessors. -/
def unrootedInF (G : CFG nb) (dyn : Fin nb → BBDyn) (b : Fin nb) : Finset Nat :=
  (G.preds b).foldl (fun acc p => acc ∪ (dyn p).UnrootedOut) ∅

/-- The dynamic state written back by one block update of the
ComputeLiveness loop body (source lines 844-877): recompute LiveOut,
LiveIn and UnrootedIn, and fold UnrootedIn into UnrootedOut when it
changed and the block has no safepoint. -/
def updatedDyn (G : CFG nb) (dyn : Fin nb → BBDyn) (b : Fin nb) : Fin nb → BBDyn :=
  Function.update dyn b
    { LiveIn := liveInF G dyn b
      LiveOut := liveOutF G dyn b
      UnrootedIn := unrootedInF G dyn b
      UnrootedOut :=
        if unrootedInF G dyn b ≠ (dyn b).UnrootedIn ∧ (G.static b).HasSafepoint = false
        then (dyn b).UnrootedOut ∪ unrootedInF G dyn b
        else (dyn b).UnrootedOut }

/-- One block update of the ComputeLiveness loop body, together with the
flag recording whether any of LiveOut, LiveIn or UnrootedIn changed. -/
def updateBlock (G : CFG nb) (dyn : Fin nb → BBDyn) (b : Fin nb) :
    (Fin nb → BBDyn) × Bool :=
  (updatedDyn G dyn b,
   decide (liveOutF G dyn b ≠ (dyn b).LiveOut) ||
     decide (liveInF G dyn b ≠ (dyn b).LiveIn) ||
     decide (unrootedInF G dyn b ≠ (dyn b).UnrootedIn))

/-- Accumulating step of one full pass: thread the state and or-in the
AnyChanged flag. -/
def passStep (G : CFG nb) (acc : (Fin nb → BBDyn) × Bool) (b : Fin nb) :
    (Fin nb → BBDyn) × Bool :=
  ((updateBlock G acc.1 b).1, acc.2 || (updateBlock G acc.1 b).2)

/-- One full pass over the blocks in reverse postorder, with the
AnyChanged flag. -/
def onePass (G : CFG nb) (dyn0 : Fin nb → BBDyn) : (Fin nb → BBDyn) × Bool :=
  G.rpot.foldl (passStep G) (dyn0, false)

/-- The while loop of ComputeLiveness: repeat full passes until one makes
no change; fueled, with none on fuel exhaustion. -/
def livenessLoop (G : CFG nb) : Nat → (Fin nb → BBDyn) → Option (Fin nb → BBDyn)
  | 0, _ => none
  | fuel+1, dyn =>
    if (onePass G dyn).2 then livenessLoop G fuel (onePass G dyn).1
    else some (onePass G dyn).1

/-- The dataflow seed established at the end of LocalScan (source lines
814-818): LiveIn from the upward-exposed uses, UnrootedOut from
DownExposedUnrooted. -/
def seedDyn (G : CFG nb) : Fin nb → BBDyn := fun b =>
  { LiveIn := (G.static b).UpExposedUses ∪ (G.static b).UpExposedUsesUnrooted
    LiveOut := ∅
    UnrootedIn := ∅
    UnrootedOut := (G.static b).DownExposedUnrooted }

/-! ### Generic facts about folded unions -/

theorem mem_foldl_union {α : Type} (f : α → Finset Nat) (l : List α)
    (init : Finset Nat) (x : Nat) :
    x ∈ l.foldl (fun acc c => acc ∪ f c) init ↔ x ∈ init ∨ ∃ c ∈ l, x ∈ f c := by
  induction l generalizing init with
  | nil => simp
  | cons a l ih =>
    rw [List.foldl_cons, ih]
    simp only [Finset.mem_union, List.mem_cons]
    constructor
    · rintro ((h | h) | ⟨c, hc, hx⟩)
      · exact Or.inl h
      · exact Or.inr ⟨a, Or.inl rfl, h⟩
      · exact Or.inr ⟨c, Or.inr hc, hx⟩
    · rintro (h | ⟨c, (rfl | hc), hx⟩)
      · exact Or.inl (Or.inl h)
      · exact Or.inl (Or.inr hx)
      · exact Or.inr ⟨c, hc, hx⟩

theorem foldl_union_subset {α : Type} (f : α → Finset Nat) (l : List α)
    (init T : Finset Nat) (hi : init ⊆ T) (hf : ∀ c ∈ l, f c ⊆ T) :
    l.foldl (fun acc c => acc ∪ f c) init ⊆ T := by
  intro x hx
  rcases (mem_foldl_union f l init x).mp hx with h | ⟨c, hc, h⟩
  · exact hi h
  · exact hf c hc h

theorem foldl_union_mono {α : Type} (f g : α → Finset Nat) (l : List α)
    (i1 i2 : Finset Nat) (hi : i1 ⊆ i2) (hf : ∀ c ∈ l, f c ⊆ g c) :
    l.foldl (fun acc c => acc ∪ f c) i1 ⊆ l.foldl (fun acc c => acc ∪ g c) i2 := by
  intro x hx
  rcases (mem_foldl_union f l i1 x).mp hx with h | ⟨c, hc, h⟩
  · exact (mem_foldl_union g l i2 x).mpr (Or.inl (hi h))
  · exact (mem_foldl_union g l i2 x).mpr (Or.inr ⟨c, hc, hf c hc h⟩)

theorem init_subset_foldl_union {α : Type} (f : α → Finset Nat) (l : List α)
    (init : Finset Nat) : init ⊆ l.foldl (fun acc c => acc ∪ f c) init :=
  fun x hx => (mem_foldl_union f l init x).mpr (Or.inl hx)

theorem foldl_union_eq_union_foldl {α : Type} (f : α → Finset Nat) (l : List α)
    (init : Finset Nat) :
    l.foldl (fun acc c => acc ∪ f c) init =
      init ∪ l.foldl (fun acc c => acc ∪ f c) ∅ := by
  ext x
  rw [mem_foldl_union, Finset.mem_union, mem_foldl_union]
  simp

/-! ### Converged passes make no change and satisfy the dataflow equations -/

theorem updateBlock_snd_false (G : CFG nb) (d : Fin nb → BBDyn) (b : Fin nb)
    (h : (updateBlock G d b).2 = false) :
    liveOutF G d b = (d b).LiveOut ∧ liveInF G d b = (d b).LiveIn ∧
      unrootedInF G d b = (d b).UnrootedIn := by
  unfold updateBlock at h
  simp only [Bool.or_eq_false_iff, decide_eq_false_iff_not, ne_eq, not_not] at h
  exact ⟨h.1.1, h.1.2, h.2⟩

theorem updateBlock_fst_of_false (G : CFG nb) (d : Fin nb → BBDyn) (b : Fin nb)
    (h : (updateBlock G d b).2 = false) :
    (updateBlock G d b).1 = d := by
  obtain ⟨h1, h2, h3⟩ := updateBlock_snd_false G d b h
  show updatedDyn G d b = d
  unfold updatedDyn
  have hcond : ¬(unrootedInF G d b ≠ (d b).UnrootedIn ∧
      (G.static b).HasSafepoint = false) := fun hc => hc.1 h3
  simp only [if_neg hcond]
  rw [h1, h2, h3]
  exact Function.update_eq_self b d

theorem passFold_true (G : CFG nb) (l : List (Fin nb)) (d : Fin nb → BBDyn) :
    (l.foldl (passStep G) (d, true)).2 = true := by
  induction l generalizing d with
  | nil => rfl
  | cons b l ih =>
    rw [List.foldl_cons]
    have hstep : passStep G (d, true) b = ((updateBlock G d b).1, true) := by
      unfold passStep
      rw [Bool.true_or]
    rw [hstep]
    exact ih _

theorem passFold_false (G : CFG nb) (l : List (Fin nb)) (d : Fin nb → BBDyn)
    (h : (l.foldl (passStep G) (d, false)).2 = false) :
    (l.foldl (passStep G) (d, false)).1 = d ∧
    ∀ b ∈ l, liveOutF G d b = (d b).LiveOut ∧ liveInF G d b = (d b).LiveIn := by
  induction l generalizing d with
  | nil =>
    refine ⟨rfl, ?_⟩
    intro b hb
    cases hb
  | cons b l ih =>
    rw [List.foldl_cons] at h ⊢
    by_cases hch : (updateBlock G d b).2 = true
    · have hstep : passStep G (d, false) b = ((updateBlock G d b).1, true) := by
        unfold passStep
        rw [hch, Bool.false_or]
      rw [hstep] at h
      rw [passFold_true G l ((updateBlock G d b).1)] at h
      cases h
    · have hch2 : (updateBlock G d b).2 = false := Bool.eq_false_iff.mpr hch
      have hstep : passStep G (d, false) b = (d, false) := by
        unfold passStep
        rw [hch2, updateBlock_fst_of_false G d b hch2, Bool.or_false]
      rw [hstep] at h ⊢
      obtain ⟨heq, hall⟩ := ih d h
      refine ⟨heq, ?_⟩
      intro c hc
      rcases List.mem_cons.mp hc with rfl | hc
      · obtain ⟨o1, o2, -⟩ := updateBlock_snd_false G d c hch2
        exact ⟨o1, o2⟩
      · exact hall c hc

theorem livenessLoop_fixpoint (G : CFG nb) (fuel : Nat) (d0 d : Fin nb → BBDyn)
    (h : livenessLoop G fuel d0 = some d) : onePass G d = (d, false) := by
  induction fuel generalizing d0 with
  | zero => exact Option.noConfusion h
  | succ n ih =>
    unfold livenessLoop at h
    by_cases hch : (onePass G d0).2 = true
    · rw [if_pos hch] at h
      exact ih _ h
    · rw [if_neg hch] at h
      injection h with h
      have hf : (onePass G d0).2 = false := Bool.eq_false_iff.mpr hch
      have hd0 : (onePass G d0).1 = d0 := (passFold_false G G.rpot d0 hf).1
      have hdd : d = d0 := by rw [← h, hd0]
      subst hdd
      calc onePass G d = ((onePass G d).1, (onePass G d).2) := rfl
        _ = (d, false) := by rw [hd0, hf]

/-- Claim C3: when the iterative dataflow of ComputeLiveness converges (a
full pass over all traversed blocks makes no change), every block B of the
traversal satisfies LiveIn[B] = UpExposedUses[B] ∪ UpExposedUsesUnrooted[B]
∪ (LiveOut[B] minus Defs[B]) and LiveOut[B] = PhiOuts[B] joined with the
union of LiveIn[S] over all successors S of B. -/
theorem computeLiveness_converged_equations (G : CFG nb) (fuel : Nat)
    (d0 d : Fin nb → BBDyn) (h : livenessLoop G fuel d0 = some d)
    (b : Fin nb) (hb : b ∈ G.rpot) :
    (d b).LiveIn = (G.static b).UpExposedUses ∪ (G.static b).UpExposedUsesUnrooted ∪
      ((d b).LiveOut \ (G.static b).Defs) ∧
    (d b).LiveOut = (G.static b).PhiOuts ∪
      (G.succs b).foldl (fun acc s2 => acc ∪ (d s2).LiveIn) ∅ := by
  have hfix := livenessLoop_fixpoint G fuel d0 d h
  have hsnd : (onePass G d).2 = false := by rw [hfix]
  obtain ⟨-, hall⟩ := passFold_false G G.rpot d hsnd
  obtain ⟨ho, hi⟩ := hall b hb
  constructor
  · rw [← hi]
    unfold liveInF
    rw [ho]
  · rw [← ho]
    unfold liveOutF
    rw [foldl_union_eq_union_foldl]

/-- A one-block control-flow graph used to instantiate the dataflow
theorems on a concrete input. -/
def exampleCFG : CFG 1 where
  static := fun _ =>
    { Defs := ∅, UpExposedUses := {0}, UpExposedUsesUnrooted := ∅,
      DownExposedUnrooted := ∅, PhiOuts := ∅, HasSafepoint := false }
  succs := fun _ => []
  preds := fun _ => []
  rpot := [0]

/-- Witness for claim C3 on the concrete one-block graph. -/
theorem computeLiveness_converged_equations_witness :
    (((onePass exampleCFG (seedDyn exampleCFG)).1 0).LiveIn =
      (exampleCFG.static 0).UpExposedUses ∪
        (exampleCFG.static 0).UpExposedUsesUnrooted ∪
        (((onePass exampleCFG (seedDyn exampleCFG)).1 0).LiveOut \
          (exampleCFG.static 0).Defs)) ∧
    (((onePass exampleCFG (seedDyn exampleCFG)).1 0).LiveOut =
      (exampleCFG.static 0).PhiOuts ∪
        (exampleCFG.succs 0).foldl
          (fun acc s2 => acc ∪ ((onePass exampleCFG (seedDyn exampleCFG)).1 s2).LiveIn) ∅) :=
  computeLiveness_converged_equations exampleCFG 1 (seedDyn exampleCFG)
    ((onePass exampleCFG (seedDyn exampleCFG)).1) rfl 0 (by decide)

/-! ### Termination of the dataflow iteration (monotone bitset growth) -/

/-- Pointwise inclusion of dynamic dataflow states. -/
def dynLE (d e : Fin nb → BBDyn) : Prop :=
  ∀ b : Fin nb, (d b).LiveIn ⊆ (e b).LiveIn ∧ (d b).LiveOut ⊆ (e b).LiveOut ∧
    (d b).UnrootedIn ⊆ (e b).UnrootedIn ∧ (d b).UnrootedOut ⊆ (e b).UnrootedOut

/-- Growth invariant maintained by the iteration: every stored set of a
traversed block is below the transfer function of the current state, so a
block update can only enlarge the stored sets. -/
def growInv (G : CFG nb) (d : Fin nb → BBDyn) : Prop :=
  ∀ b ∈ G.rpot,
    (d b).LiveOut ⊆ liveOutF G d b ∧ (d b).LiveIn ⊆ liveInF G d b ∧
      (d b).UnrootedIn ⊆ unrootedInF G d b

theorem liveOutF_mono (G : CFG nb) {d e : Fin nb → BBDyn} (h : dynLE d e) (b : Fin nb) :
    liveOutF G d b ⊆ liveOutF G e b :=
  foldl_union_mono _ _ _ _ _ (subset_refl _) (fun c _ => (h c).1)

theorem liveInF_mono (G : CFG nb) {d e : Fin nb → BBDyn} (h : dynLE d e) (b : Fin nb) :
    liveInF G d b ⊆ liveInF G e b := by
  unfold liveInF
  intro x hx
  rcases Finset.mem_union.mp hx with hx | hx
  · exact Finset.mem_union_left _ hx
  · rcases Finset.mem_sdiff.mp hx with ⟨h1, h2⟩
    exact Finset.mem_union_right _ (Finset.mem_sdiff.mpr ⟨liveOutF_mono G h b h1, h2⟩)

theorem unrootedInF_mono (G : CFG nb) {d e : Fin nb → BBDyn} (h : dynLE d e) (b : Fin nb) :
    unrootedInF G d b ⊆ unrootedInF G e b :=
  foldl_union_mono _ _ _ _ _ (subset_refl _) (fun c _ => (h c).2.2.2)

theorem updatedDyn_same (G : CFG nb) (d : Fin nb → BBDyn) (b : Fin nb) :
    (updatedDyn G d b b).LiveOut = liveOutF G d b ∧
    (updatedDyn G d b b).LiveIn = liveInF G d b ∧
    (updatedDyn G d b b).UnrootedIn = unrootedInF G d b := by
  unfold updatedDyn
  rw [Function.update_same]
  exact ⟨rfl, rfl, rfl⟩

theorem updatedDyn_ne (G : CFG nb) (d : Fin nb → BBDyn) (b c : Fin nb) (h : c ≠ b) :
    updatedDyn G d b c = d c := by
  unfold updatedDyn
  exact Function.update_noteq h _ _

theorem updatedDyn_grow (G : CFG nb) (d : Fin nb → BBDyn) (b : Fin nb)
    (hb : b ∈ G.rpot) (hinv : growInv G d) : dynLE d (updatedDyn G d b) := by
  intro c
  by_cases hc : c = b
  · subst hc
    obtain ⟨h1, h2, h3⟩ := hinv c hb
    obtain ⟨e1, e2, e3⟩ := updatedDyn_same G d c
    rw [e1, e2, e3]
    refine ⟨h2, h1, h3, ?_⟩
    unfold updatedDyn
    rw [Function.update_same]
    by_cases hcon : unrootedInF G d c ≠ (d c).UnrootedIn ∧ (G.static c).HasSafepoint = false
    · simp only [if_pos hcon]
      exact Finset.subset_union_left
    · simp only [if_neg hcon]
      exact subset_refl _
  · rw [updatedDyn_ne G d b c hc]
    exact ⟨subset_refl _, subset_refl _, subset_refl _, subset_refl _⟩

theorem updatedDyn_growInv (G : CFG nb) (d : Fin nb → BBDyn) (b : Fin nb)
    (hb : b ∈ G.rpot) (hinv : growInv G d) : growInv G (updatedDyn G d b) := by
  have hle := updatedDyn_grow G d b hb hinv
  intro c hc
  by_cases hcb : c = b
  · subst hcb
    obtain ⟨e1, e2, e3⟩ := updatedDyn_same G d c
    rw [e1, e2, e3]
    exact ⟨liveOutF_mono G hle c, liveInF_mono G hle c, unrootedInF_mono G hle c⟩
  · rw [updatedDyn_ne G d b c hcb]
    obtain ⟨h1, h2, h3⟩ := hinv c hc
    exact ⟨h1.trans (liveOutF_mono G hle c), h2.trans (liveInF_mono G hle c),
           h3.trans (unrootedInF_mono G hle c)⟩

/-- Union of every static bitset of every block: all sets the dataflow
ever manipulates stay inside it. -/
def staticUniverse (G : CFG nb) : Finset Nat :=
  Finset.univ.biUnion (fun b : Fin nb =>
    (G.static b).Defs ∪ (G.static b).UpExposedUses ∪
      (G.static b).UpExposedUsesUnrooted ∪ (G.static b).DownExposedUnrooted ∪
      (G.static b).PhiOuts)

/-- All four dynamic sets of every block stay within the static
universe. -/
def boundedD (G : CFG nb) (d : Fin nb → BBDyn) : Prop :=
  ∀ b : Fin nb, (d b).LiveIn ⊆ staticUniverse G ∧ (d b).LiveOut ⊆ staticUniverse G ∧
    (d b).UnrootedIn ⊆ staticUniverse G ∧ (d b).UnrootedOut ⊆ staticUniverse G

theorem staticAll_subset_universe (G : CFG nb) (b : Fin nb) :
    (G.static b).Defs ∪ (G.static b).UpExposedUses ∪
      (G.static b).UpExposedUsesUnrooted ∪ (G.static b).DownExposedUnrooted ∪
      (G.static b).PhiOuts ⊆ staticUniverse G := by
  unfold staticUniverse
  exact Finset.subset_biUnion_of_mem
    (fun b : Fin nb => (G.static b).Defs ∪ (G.static b).UpExposedUses ∪
      (G.static b).UpExposedUsesUnrooted ∪ (G.static b).DownExposedUnrooted ∪
      (G.static b).PhiOuts) (Finset.mem_univ b)

theorem upExposedUses_subset_universe (G : CFG nb) (b : Fin nb) :
    (G.static b).UpExposedUses ⊆ staticUniverse G :=
  (Finset.subset_union_right.trans
    (Finset.subset_union_left.trans
      (Finset.subset_union_left.trans Finset.subset_union_left))).trans
    (staticAll_subset_universe G b)

theorem upExposedUsesUnrooted_subset_universe (G : CFG nb) (b : Fin nb) :
    (G.static b).UpExposedUsesUnrooted ⊆ staticUniverse G :=
  (Finset.subset_union_right.trans
    (Finset.subset_union_left.trans Finset.subset_union_left)).trans
    (staticAll_subset_universe G b)

theorem downExposedUnrooted_subset_universe (G : CFG nb) (b : Fin nb) :
    (G.static b).DownExposedUnrooted ⊆ staticUniverse G :=
  (Finset.subset_union_right.trans Finset.subset_union_left).trans
    (staticAll_subset_universe G b)

theorem phiOuts_subset_universe (G : CFG nb) (b : Fin nb) :
    (G.static b).PhiOuts ⊆ staticUniverse G :=
  Finset.subset_union_right.trans (staticAll_subset_universe G b)

theorem liveOutF_bounded (G : CFG nb) (d : Fin nb → BBDyn) (b : Fin nb)
    (hd : boundedD G d) : liveOutF G d b ⊆ staticUniverse G :=
  foldl_union_subset _ _ _ _ (phiOuts_subset_universe G b) (fun c _ => (hd c).1)

theorem liveInF_bounded (G : CFG nb) (d : Fin nb → BBDyn) (b : Fin nb)
    (hd : boundedD G d) : liveInF G d b ⊆ staticUniverse G := by
  unfold liveInF
  refine Finset.union_subset (Finset.union_subset ?_ ?_) ?_
  · exact upExposedUses_subset_universe G b
  · exact upExposedUsesUnrooted_subset_universe G b
  · exact (Finset.sdiff_subset).trans (liveOutF_bounded G d b hd)

theorem unrootedInF_bounded (G : CFG nb) (d : Fin nb → BBDyn) (b : Fin nb)
    (hd : boundedD G d) : unrootedInF G d b ⊆ staticUniverse G :=
  foldl_union_subset _ _ _ _ (Finset.empty_subset _) (fun c _ => (hd c).2.2.2)

theorem updatedDyn_bounded (G : CFG nb) (d : Fin nb → BBDyn) (b : Fin nb)
    (hd : boundedD G d) : boundedD G (updatedDyn G d b) := by
  intro c
  by_cases hc : c = b
  · subst hc
    obtain ⟨e1, e2, e3⟩ := updatedDyn_same G d c
    rw [e1, e2, e3]
    refine ⟨liveInF_bounded G d c hd, liveOutF_bounded G d c hd,
      unrootedInF_bounded G d c hd, ?_⟩
    unfold updatedDyn
    rw [Function.update_same]
    by_cases hcon : unrootedInF G d c ≠ (d c).UnrootedIn ∧ (G.static c).HasSafepoint = false
    · simp only [if_pos hcon]
      exact Finset.union_subset (hd c).2.2.2 (unrootedInF_bounded G d c hd)
    · simp only [if_neg hcon]
      exact (hd c).2.2.2
  · rw [updatedDyn_ne G d b c hc]
    exact hd c

/-- Total cardinality of the dynamic state, the measure that grows at
every changing pass. -/
def measureD (d : Fin nb → BBDyn) : Nat :=
  Finset.univ.sum (fun b : Fin nb =>
    (d b).LiveIn.card + (d b).LiveOut.card + (d b).UnrootedIn.card +
      (d b).UnrootedOut.card)

theorem measureD_le_of_dynLE {d e : Fin nb → BBDyn} (h : dynLE d e) :
    measureD d ≤ measureD e := by
  unfold measureD
  refine Finset.sum_le_sum ?_
  intro b _
  obtain ⟨h1, h2, h3, h4⟩ := h b
  have c1 := Finset.card_le_card h1
  have c2 := Finset.card_le_card h2
  have c3 := Finset.card_le_card h3
  have c4 := Finset.card_le_card h4
  omega

theorem measureD_lt_update (G : CFG nb) (d : Fin nb → BBDyn) (b : Fin nb)
    (hb : b ∈ G.rpot) (hinv : growInv G d)
    (hch : (updateBlock G d b).2 = true) :
    measureD d < measureD (updatedDyn G d b) := by
  obtain ⟨e1, e2, e3⟩ := updatedDyn_same G d b
  obtain ⟨l1, l2, l3, l4⟩ := updatedDyn_grow G d b hb hinv b
  have c1 := Finset.card_le_card l1
  have c2 := Finset.card_le_card l2
  have c3 := Finset.card_le_card l3
  have c4 := Finset.card_le_card l4
  simp only [updateBlock, Bool.or_eq_true, decide_eq_true_eq] at hch
  have hstrict : (d b).LiveIn.card + (d b).LiveOut.card + (d b).UnrootedIn.card +
      (d b).UnrootedOut.card <
      (updatedDyn G d b b).LiveIn.card + (updatedDyn G d b b).LiveOut.card +
      (updatedDyn G d b b).UnrootedIn.card + (updatedDyn G d b b).UnrootedOut.card := by
    rcases hch with (h | h) | h
    · have hss : (d b).LiveOut ⊂ (updatedDyn G d b b).LiveOut := by
        rw [e1]
        exact Finset.ssubset_iff_subset_ne.mpr ⟨(hinv b hb).1, fun he => h he.symm⟩
      have := Finset.card_lt_card hss
      omega
    · have hss : (d b).LiveIn ⊂ (updatedDyn G d b b).LiveIn := by
        rw [e2]
        exact Finset.ssubset_iff_subset_ne.mpr ⟨(hinv b hb).2.1, fun he => h he.symm⟩
      have := Finset.card_lt_card hss
      omega
    · have hss : (d b).UnrootedIn ⊂ (updatedDyn G d b b).UnrootedIn := by
        rw [e3]
        exact Finset.ssubset_iff_subset_ne.mpr ⟨(hinv b hb).2.2, fun he => h he.symm⟩
      have := Finset.card_lt_card hss
      omega
  have hsum_d : ((d b).LiveIn.card + (d b).LiveOut.card + (d b).UnrootedIn.card +
      (d b).UnrootedOut.card) + (Finset.univ.erase b).sum
        (fun c => (d c).LiveIn.card + (d c).LiveOut.card + (d c).UnrootedIn.card +
          (d c).UnrootedOut.card) = measureD d := by
    unfold measureD
    exact Finset.add_sum_erase Finset.univ
      (fun c => (d c).LiveIn.card + (d c).LiveOut.card + (d c).UnrootedIn.card +
        (d c).UnrootedOut.card) (Finset.mem_univ b)
  have hsum_e : ((updatedDyn G d b b).LiveIn.card + (updatedDyn G d b b).LiveOut.card +
      (updatedDyn G d b b).UnrootedIn.card + (updatedDyn G d b b).UnrootedOut.card) +
      (Finset.univ.erase b).sum
        (fun c => (updatedDyn G d b c).LiveIn.card + (updatedDyn G d b c).LiveOut.card +
          (updatedDyn G d b c).UnrootedIn.card + (updatedDyn G d b c).UnrootedOut.card) =
      measureD (updatedDyn G d b) := by
    unfold measureD
    exact Finset.add_sum_erase Finset.univ
      (fun c => (updatedDyn G d b c).LiveIn.card + (updatedDyn G d b c).LiveOut.card +
        (updatedDyn G d b c).UnrootedIn.card + (updatedDyn G d b c).UnrootedOut.card)
      (Finset.mem_univ b)
  have hrest : (Finset.univ.erase b).sum
      (fun c => (updatedDyn G d b c).LiveIn.card + (updatedDyn G d b c).LiveOut.card +
        (updatedDyn G d b c).UnrootedIn.card + (updatedDyn G d b c).UnrootedOut.card) =
      (Finset.univ.erase b).sum
        (fun c => (d c).LiveIn.card + (d c).LiveOut.card + (d c).UnrootedIn.card +
          (d c).UnrootedOut.card) := by
    refine Finset.sum_congr rfl ?_
    intro c hc
    rw [updatedDyn_ne G d b c (Finset.ne_of_mem_erase hc)]
  omega

theorem passFold_grow (G : CFG nb) (l : List (Fin nb)) (hl : ∀ b ∈ l, b ∈ G.rpot)
    (d : Fin nb → BBDyn) (flag : Bool) (hinv : growInv G d) (hbnd : boundedD G d) :
    growInv G (l.foldl (passStep G) (d, flag)).1 ∧
    boundedD G (l.foldl (passStep G) (d, flag)).1 ∧
    measureD d ≤ measureD (l.foldl (passStep G) (d, flag)).1 ∧
    ((l.foldl (passStep G) (d, flag)).2 = true →
      flag = true ∨ measureD d < measureD (l.foldl (passStep G) (d, flag)).1) := by
  induction l generalizing d flag with
  | nil => exact ⟨hinv, hbnd, le_refl _, fun h => Or.inl h⟩
  | cons b l ih =>
    rw [List.foldl_cons]
    have hbr := hl b (List.mem_cons_self b l)
    have hl2 : ∀ c ∈ l, c ∈ G.rpot := fun c hc => hl c (List.mem_cons_of_mem b hc)
    have hinv2 := updatedDyn_growInv G d b hbr hinv
    have hbnd2 := updatedDyn_bounded G d b hbnd
    have hle := updatedDyn_grow G d b hbr hinv
    have hmle := measureD_le_of_dynLE hle
    have hps : passStep G (d, flag) b = (updatedDyn G d b, flag || (updateBlock G d b).2) :=
      rfl
    rw [hps]
    obtain ⟨g1, g2, g3, g4⟩ := ih hl2 (updatedDyn G d b) (flag || (updateBlock G d b).2)
      hinv2 hbnd2
    refine ⟨g1, g2, hmle.trans g3, ?_⟩
    intro htrue
    rcases g4 htrue with hor | hlt
    · cases flag with
      | true => exact Or.inl rfl
      | false =>
        rw [Bool.false_or] at hor
        exact Or.inr (lt_of_lt_of_le (measureD_lt_update G d b hbr hinv hor) g3)
    · exact Or.inr (lt_of_le_of_lt hmle hlt)

theorem onePass_grow (G : CFG nb) (d : Fin nb → BBDyn)
    (hinv : growInv G d) (hbnd : boundedD G d) :
    growInv G (onePass G d).1 ∧ boundedD G (onePass G d).1 ∧
    measureD d ≤ measureD (onePass G d).1 ∧
    ((onePass G d).2 = true → measureD d < measureD (onePass G d).1) := by
  obtain ⟨g1, g2, g3, g4⟩ := passFold_grow G G.rpot (fun b hb => hb) d false hinv hbnd
  refine ⟨g1, g2, g3, ?_⟩
  intro h
  rcases g4 h with hf | hs
  · cases hf
  · exact hs

/-- Fuel bound: the measure can never exceed this, so the loop converges
within it. -/
def measureBound (G : CFG nb) : Nat := nb * (4 * (staticUniverse G).card)

theorem measureD_le_bound (G : CFG nb) (d : Fin nb → BBDyn) (hd : boundedD G d) :
    measureD d ≤ measureBound G := by
  unfold measureD measureBound
  calc Finset.univ.sum (fun b : Fin nb =>
        (d b).LiveIn.card + (d b).LiveOut.card + (d b).UnrootedIn.card +
          (d b).UnrootedOut.card)
      ≤ Finset.univ.sum (fun _ : Fin nb => 4 * (staticUniverse G).card) := by
        refine Finset.sum_le_sum ?_
        intro b _
        obtain ⟨h1, h2, h3, h4⟩ := hd b
        have c1 := Finset.card_le_card h1
        have c2 := Finset.card_le_card h2
        have c3 := Finset.card_le_card h3
        have c4 := Finset.card_le_card h4
        omega
    _ = nb * (4 * (staticUniverse G).card) := by
        rw [Finset.sum_const, Finset.card_univ, Fintype.card_fin, smul_eq_mul]

theorem livenessLoop_terminates_fuel (G : CFG nb) :
    ∀ (fuel : Nat) (d : Fin nb → BBDyn), growInv G d → boundedD G d →
      measureBound G < fuel + measureD d →
      ∃ d2, livenessLoop G fuel d = some d2 := by
  intro fuel
  induction fuel with
  | zero =>
    intro d hinv hbnd hlt
    have := measureD_le_bound G d hbnd
    omega
  | succ n ih =>
    intro d hinv hbnd hlt
    obtain ⟨g1, g2, g3, g4⟩ := onePass_grow G d hinv hbnd
    unfold livenessLoop
    by_cases hch : (onePass G d).2 = true
    · rw [if_pos hch]
      have hstrict := g4 hch
      exact ih (onePass G d).1 g1 g2 (by omega)
    · rw [if_neg hch]
      exact ⟨(onePass G d).1, rfl⟩

/-- Claim C8: the iterative dataflow loop of ComputeLiveness terminates
for every input control-flow graph: starting from the LocalScan seed,
after finitely many full passes a pass makes no change, because the
LiveIn, LiveOut, UnrootedIn and UnrootedOut sets only ever grow between
passes while remaining inside the finite static universe. -/
theorem computeLiveness_terminates (nbv : Nat) (G : CFG nbv) :
    ∃ fuel dyn, livenessLoop G fuel (seedDyn G) = some dyn := by
  have hinv : growInv G (seedDyn G) := by
    intro b hb
    refine ⟨Finset.empty_subset _, ?_, Finset.empty_subset _⟩
    show (G.static b).UpExposedUses ∪ (G.static b).UpExposedUsesUnrooted ⊆ liveInF G (seedDyn G) b
    unfold liveInF
    exact Finset.subset_union_left
  have hbnd : boundedD G (seedDyn G) := by
    intro b
    refine ⟨?_, Finset.empty_subset _, Finset.empty_subset _, ?_⟩
    · exact Finset.union_subset (upExposedUses_subset_universe G b)
        (upExposedUsesUnrooted_subset_universe G b)
    · exact downExposedUnrooted_subset_universe G b
  obtain ⟨d2, hd2⟩ := livenessLoop_terminates_fuel G (measureBound G + 1) (seedDyn G)
    hinv hbnd (by omega)
  exact ⟨measureBound G + 1, d2, hd2⟩

/-! ## Interference neighbors, PEO ordering and coloring (ColorRoots) -/

/-- The coloring-relevant part of State: the maximum assigned identifier,
the per-safepoint (post-refinement) live sets indexed by safepoint number,
and the safepoint numbers of the returns-twice safepoints. -/
structure CState where
  MaxPtrNumber : Int
  LiveSets : List (Finset Nat)
  ReturnsTwiceSafepoints : List Nat

/-- The neighbor set of identifier i: the union of all safepoint live sets
containing i (ComputeLiveSets, source lines 923-940). Self-membership is
retained deliberately. -/
def neighborsEntry (LiveSets : List (Finset Nat)) (i : Nat) : Finset Nat :=
  LiveSets.foldl (fun acc ls => if i ∈ ls then acc ∪ ls else acc) ∅

/-- The Neighbors vector, one entry per identifier 0..MaxPtrNumber. -/
def computeNeighbors (S : CState) : List (Finset Nat) :=
  (List.range (S.MaxPtrNumber + 1).toNat).map (neighborsEntry S.LiveSets)

/-- Element bookkeeping of the PEO bucket queue (PEOIterator, source lines
948-965): finalized flag (weight equal to unsigned -1 in the source),
current weight, current position inside its level. -/
structure PEOElem where
  finalized : Bool
  weight : Nat
  pos : Nat
deriving DecidableEq

/-- Raise one neighbor of the just-emitted vertex v: tombstone its old
queue position and push it one level higher, appending a fresh level when
the weight outgrows the queue (PEOIterator.next, source lines 982-998). -/
def raiseOne (v : Nat) (acc : List PEOElem × List (List Int)) (u : Nat) :
    List PEOElem × List (List Int) :=
  if u = v then acc
  else
    match acc.1[u]? with
    | none => acc
    | some pe =>
      if pe.finalized then acc
      else
        let levels1 := acc.2.set pe.weight ((acc.2.getD pe.weight []).set pe.pos (-1))
        let levels2 := if levels1.length ≤ pe.weight + 1 then levels1 ++ [[]] else levels1
        let newLvl := (levels2.getD (pe.weight + 1) []) ++ [(u : Int)]
        (acc.1.set u ⟨false, pe.weight + 1, newLvl.length - 1⟩,
         levels2.set (pe.weight + 1) newLvl)

/-- The emission order produced by repeatedly calling PEOIterator.next
(source lines 966-1002), fueled: each fuel unit performs one pop attempt
(drop an exhausted level from the back, discard a tombstone, or emit a
vertex, finalize it and raise its not-yet-finalized neighbors in
ascending order, which is the SetVector insertion order). -/
def peoEmit (neigh : List (Finset Nat)) :
    Nat → List PEOElem → List (List Int) → List Nat
  | 0, _, _ => []
  | fuel+1, elems, levels =>
    match levels.getLast? with
    | none => []
    | some lvl =>
      match lvl.getLast? with
      | none => peoEmit neigh fuel elems levels.dropLast
      | some e =>
        if e < 0 then peoEmit neigh fuel elems (levels.dropLast ++ [lvl.dropLast])
        else
          let elems1 := match elems[e.toNat]? with
            | some pe => elems.set e.toNat { pe with finalized := true }
            | none => elems
          let r := (ascendingMembers (neigh.getD e.toNat ∅)).foldl (raiseOne e.toNat)
            (elems1, levels.dropLast ++ [lvl.dropLast])
          e.toNat :: peoEmit neigh fuel r.1 r.2

/-- The pre-assignment loop of ColorRoots (source lines 1020-1030): give
every identifier live at a returns-twice safepoint and not yet colored a
distinct color from the low range, counting the colors handed out. -/
def preassignRT (S : CState) : (Nat → Int) × Nat :=
  S.ReturnsTwiceSafepoints.foldl
    (fun acc sp =>
      (ascendingMembers (S.LiveSets.getD sp ∅)).foldl
        (fun acc2 idx =>
          if acc2.1 idx = -1 then (Function.update acc2.1 idx (acc2.2 : Int), acc2.2 + 1)
          else acc2)
        acc)
    (fun _ => -1, 0)

/-- The set of already-used greedy color offsets among the neighbors of v:
colors below PreAssignedColors (including the unassigned -1) are skipped,
the rest are recorded with the P offset removed (source lines
1044-1051). -/
def greedyUsed (neigh : List (Finset Nat)) (P : Nat) (C : Nat → Int) (v : Nat) :
    Finset Nat :=
  ((neigh.getD v ∅).filter (fun u => (P : Int) ≤ C u)).image (fun u => (C u - P).toNat)

/-- The color offset returned by UsedColors.flip().find_first(): the
smallest offset below MaxAssignedColor + 2 not used by a neighbor, or -1
when every offset in range is taken (source line 1052). -/
def greedyNewColor (neigh : List (Finset Nat)) (P : Nat) (C : Nat → Int)
    (maxA : Int) (v : Nat) : Int :=
  match (Finset.range (maxA + 2).toNat \ greedyUsed neigh P C v).min with
  | some k => (k : Int)
  | none => -1

/-- One step of the greedy coloring loop of ColorRoots (source lines
1035-1057) at emitted vertex v: skip vertices that are already colored or
have no neighbors, otherwise assign P + the found offset and track the
maximum assigned offset. -/
def greedyStep (neigh : List (Finset Nat)) (P : Nat)
    (acc : (Nat → Int) × Int) (v : Nat) : (Nat → Int) × Int :=
  if acc.1 v ≠ -1 then acc
  else if neigh.getD v ∅ = ∅ then acc
  else
    (Function.update acc.1 v (greedyNewColor neigh P acc.1 acc.2 v + P),
     if greedyNewColor neigh P acc.1 acc.2 v > acc.2 then
       greedyNewColor neigh P acc.1 acc.2 v
     else acc.2)

/-- ColorRoots (source lines 1016-1059): pre-assign private colors for the
returns-twice live sets, then greedily color in the PEO emission order.
The PEO queue starts with every vertex at weight 0 in one level; the fuel
is a crude upper bound on the number of pop attempts. -/
def colorRoots (S : CState) : Nat → Int :=
  ((peoEmit (computeNeighbors S)
      (((computeNeighbors S).length + 2) * ((computeNeighbors S).length + 2) *
        ((computeNeighbors S).length + 2))
      ((List.range (computeNeighbors S).length).map (fun i => ⟨false, 0, i⟩))
      [(List.range (computeNeighbors S).length).map (fun i => (i : Int))]).foldl
    (greedyStep (computeNeighbors S) (preassignRT S).2)
    ((preassignRT S).1, -1)).1

/-- The count of colors pre-assigned for returns-twice safepoints
(PreAssignedColors at the start of the greedy loop). -/
def preAssignedColors (S : CState) : Nat := (preassignRT S).2

/-! ### Identically colored identifiers are never co-live -/

theorem foldl_preserve {α β : Type} (p : α → Prop) (f : α → β → α) (l : List β)
    (a : α) (h0 : p a) (hstep : ∀ x y, p x → p (f x y)) : p (l.foldl f a) := by
  induction l generalizing a with
  | nil => exact h0
  | cons b l ih => exact ih _ (hstep a b h0)

theorem mem_neighborsEntry (LiveSets : List (Finset Nat)) (i j : Nat) :
    j ∈ neighborsEntry LiveSets i ↔ ∃ ls ∈ LiveSets, i ∈ ls ∧ j ∈ ls := by
  have h : ∀ init : Finset Nat,
      j ∈ LiveSets.foldl (fun acc ls => if i ∈ ls then acc ∪ ls else acc) init ↔
        j ∈ init ∨ ∃ ls ∈ LiveSets, i ∈ ls ∧ j ∈ ls := by
    induction LiveSets with
    | nil => intro init; simp
    | cons a l ih =>
      intro init
      rw [List.foldl_cons, ih]
      by_cases hi : i ∈ a
      · simp only [if_pos hi, Finset.mem_union, List.mem_cons]
        constructor
        · rintro ((h | h) | ⟨ls, hls, h1, h2⟩)
          · exact Or.inl h
          · exact Or.inr ⟨a, Or.inl rfl, hi, h⟩
          · exact Or.inr ⟨ls, Or.inr hls, h1, h2⟩
        · rintro (h | ⟨ls, hls2, h1, h2⟩)
          · exact Or.inl (Or.inl h)
          · rcases hls2 with rfl | hls2
            · exact Or.inl (Or.inr h2)
            · exact Or.inr ⟨ls, hls2, h1, h2⟩
      · simp only [if_neg hi, List.mem_cons]
        constructor
        · rintro (h | ⟨ls, hls, h1, h2⟩)
          · exact Or.inl h
          · exact Or.inr ⟨ls, Or.inr hls, h1, h2⟩
        · rintro (h | ⟨ls, hls2, h1, h2⟩)
          · exact Or.inl h
          · rcases hls2 with rfl | hls2
            · exact absurd h1 hi
            · exact Or.inr ⟨ls, hls2, h1, h2⟩
  rw [neighborsEntry, h ∅]
  simp

theorem computeNeighbors_getD_lt (S : CState) (v : Nat)
    (hv : v < (computeNeighbors S).length) :
    (computeNeighbors S).getD v ∅ = neighborsEntry S.LiveSets v := by
  rw [List.getD_eq_getElem _ _ hv]
  simp [computeNeighbors]

theorem getD_ne_empty_lt (S : CState) (v : Nat)
    (h : (computeNeighbors S).getD v ∅ ≠ ∅) : v < (computeNeighbors S).length := by
  by_contra hv
  exact h (List.getD_eq_default _ _ (le_of_not_lt hv))

theorem mem_getD_computeNeighbors (S : CState) (v u : Nat) (ls : Finset Nat)
    (hls : ls ∈ S.LiveSets) (hv : v ∈ ls) (hu : u ∈ ls)
    (hne : (computeNeighbors S).getD v ∅ ≠ ∅) :
    u ∈ (computeNeighbors S).getD v ∅ := by
  rw [computeNeighbors_getD_lt S v (getD_ne_empty_lt S v hne)]
  exact (mem_neighborsEntry _ v u).mpr ⟨ls, hls, hv, hu⟩

theorem preassignRT_lt (S : CState) (u : Nat) :
    (preassignRT S).1 u < ((preassignRT S).2 : Int) := by
  unfold preassignRT
  refine foldl_preserve (fun acc : (Nat → Int) × Nat => ∀ w, acc.1 w < (acc.2 : Int))
    _ _ _ ?_ ?_ u
  · intro w
    simp
  · intro acc sp hacc
    refine foldl_preserve (fun acc2 : (Nat → Int) × Nat => ∀ w, acc2.1 w < (acc2.2 : Int))
      _ _ acc hacc ?_
    intro acc2 idx h2
    by_cases hidx : acc2.1 idx = -1
    · simp only [if_pos hidx]
      intro w
      by_cases hw : w = idx
      · subst hw
        rw [Function.update_same]
        push_cast
        omega
      · rw [Function.update_noteq hw]
        have h3 := h2 w
        push_cast at h3 ⊢
        omega
    · simp only [if_neg hidx]
      exact h2

theorem greedyNewColor_cases (neigh : List (Finset Nat)) (P : Nat) (C : Nat → Int)
    (maxA : Int) (v : Nat) :
    greedyNewColor neigh P C maxA v = -1 ∨
    ∃ k : Nat, greedyNewColor neigh P C maxA v = (k : Int) ∧
      k ∉ greedyUsed neigh P C v := by
  unfold greedyNewColor
  rcases hmin : (Finset.range (maxA + 2).toNat \ greedyUsed neigh P C v).min with _ | k
  · exact Or.inl rfl
  · exact Or.inr ⟨k, rfl, (Finset.mem_sdiff.mp (Finset.mem_of_min hmin)).2⟩

/-- The coloring invariant carried through the greedy loop: identifiers
holding identical colors at or above the pre-assigned range are never
co-live at any safepoint live set. -/
def colorInv (S : CState) (P : Nat) (C : Nat → Int) : Prop :=
  ∀ a b, a ≠ b → C a = C b → (P : Int) ≤ C a →
    ∀ ls ∈ S.LiveSets, ¬(a ∈ ls ∧ b ∈ ls)

theorem greedy_assign_colorInv (S : CState) (P : Nat) (C : Nat → Int) (maxA : Int)
    (v : Nat) (hne : (computeNeighbors S).getD v ∅ ≠ ∅) (hinv : colorInv S P C) :
    colorInv S P
      (Function.update C v (greedyNewColor (computeNeighbors S) P C maxA v + P)) := by
  intro a b hab hcc hP ls hls hmem
  obtain ⟨ha, hb⟩ := hmem
  have key : ∀ u, u ≠ v → u ∈ (computeNeighbors S).getD v ∅ →
      C u = greedyNewColor (computeNeighbors S) P C maxA v + P →
      (P : Int) ≤ C u → False := by
    intro u huv humem hcu hPu
    have hN0 : 0 ≤ greedyNewColor (computeNeighbors S) P C maxA v := by omega
    rcases greedyNewColor_cases (computeNeighbors S) P C maxA v with hcase | ⟨k, hk, hknot⟩
    · rw [hcase] at hN0
      norm_num at hN0
    · apply hknot
      have hval : (C u - P).toNat = k := by
        rw [hcu, hk]
        omega
      exact Finset.mem_image.mpr ⟨u, Finset.mem_filter.mpr ⟨humem, hPu⟩, hval⟩
  by_cases hav : a = v
  · subst hav
    have hbv : b ≠ a := fun h => hab h.symm
    rw [Function.update_same] at hcc hP
    rw [Function.update_noteq hbv] at hcc
    exact key b hbv (mem_getD_computeNeighbors S a b ls hls ha hb hne) hcc.symm
      (hcc ▸ hP)
  · by_cases hbv : b = v
    · subst hbv
      rw [Function.update_noteq hav] at hcc hP
      rw [Function.update_same] at hcc
      exact key a hav (mem_getD_computeNeighbors S b a ls hls hb ha hne) hcc hP
    · rw [Function.update_noteq hav] at hcc hP
      rw [Function.update_noteq hbv] at hcc
      exact hinv a b hab hcc hP ls hls ⟨ha, hb⟩

theorem greedyStep_colorInv (S : CState) (P : Nat) (acc : (Nat → Int) × Int) (v : Nat)
    (hinv : colorInv S P acc.1) :
    colorInv S P (greedyStep (computeNeighbors S) P acc v).1 := by
  unfold greedyStep
  by_cases h1 : acc.1 v ≠ -1
  · rw [if_pos h1]
    exact hinv
  · rw [if_neg h1]
    by_cases h2 : (computeNeighbors S).getD v ∅ = ∅
    · rw [if_pos h2]
      exact hinv
    · rw [if_neg h2]
      exact greedy_assign_colorInv S P acc.1 acc.2 v h2 hinv

/-- Claim C1: for every pair of distinct identifiers i and j to which
ColorRoots assigns the same color, with that color at least P (the count
of colors pre-assigned for returns-twice safepoints), no safepoint live
set (post refinement, as held by the state at coloring time) contains
both. -/
theorem colorRoots_identical_colors_not_colive (S : CState) (i j : Nat)
    (hij : i ≠ j) (heq : colorRoots S i = colorRoots S j)
    (hge : (preAssignedColors S : Int) ≤ colorRoots S i)
    (ls : Finset Nat) (hls : ls ∈ S.LiveSets) :
    ¬(i ∈ ls ∧ j ∈ ls) := by
  have hinv0 : colorInv S (preAssignedColors S) (preassignRT S).1 := by
    intro a b hab hcc hP ls2 hls2 hmem
    exact absurd hP (not_le.mpr (preassignRT_lt S a))
  have hfold : colorInv S (preAssignedColors S) (colorRoots S) := by
    unfold colorRoots
    exact foldl_preserve
      (fun acc : (Nat → Int) × Int => colorInv S (preAssignedColors S) acc.1)
      (greedyStep (computeNeighbors S) (preassignRT S).2) _ ((preassignRT S).1, -1)
      hinv0 (fun acc v h => greedyStep_colorInv S (preAssignedColors S) acc v h)
  exact hfold i j hij heq hge ls hls

/-- Witness for claim C1: with two singleton live sets, identifiers 0 and
1 share greedy color 0 at or above P = 0 and are indeed not co-live. -/
theorem colorRoots_identical_colors_not_colive_witness :
    ¬((0 : Nat) ∈ ({0} : Finset Nat) ∧ (1 : Nat) ∈ ({0} : Finset Nat)) :=
  colorRoots_identical_colors_not_colive ⟨1, [{0}, {1}], []⟩ 0 1 (by decide)
    (by decide) (by decide) {0} (by decide)

/-! ## Frame materialization (PushGCFrame, PlaceRootsAndUpdateCalls) -/

/-- The push sequence emitted by PushGCFrame (source lines 1070-1083):
slot 0 receives the encoded root count NRoots << 1 (computed in 32-bit
unsigned arithmetic), slot 1 receives the previous top of the GC-stack
chain, and the frame is published as the new top. -/
structure PushSeq where
  slot0Value : Nat
  savesPrevTopToSlot1 : Bool
  publishesFrame : Bool
deriving DecidableEq

/-- PushGCFrame, reduced to the values it stores. -/
def pushGCFrame (NRoots : Nat) : PushSeq :=
  { slot0Value := (NRoots <<< 1) % 2 ^ 32
    savesPrevTopToSlot1 := true
    publishesFrame := true }

/-- What PlaceRootsAndUpdateCalls emits when a frame is needed: the root
count, the number of slots of the frame alloca, the push sequence at
entry, and a pop before every return. -/
structure FrameEmission where
  NRoots : Nat
  numSlots : Nat
  push : PushSeq
  popsBeforeEachReturn : Bool
deriving DecidableEq

/-- MaxColor as computed by PlaceRootsAndUpdateCalls (source lines
1329-1332): the maximum over the Colors vector (of length
MaxPtrNumber + 1), starting from -1. -/
def maxColorOf (Colors : Nat → Int) (MaxPtrNumber : Int) : Int :=
  (List.range (MaxPtrNumber + 1).toNat).foldl
    (fun m i => if Colors i > m then Colors i else m) (-1)

/-- PlaceRootsAndUpdateCalls (source lines 1328-1393), reduced to the
frame arithmetic: a frame is emitted iff MaxColor is not -1 or there are
unpromoted allocas; then NRoots = MaxColor + 1 + NAllocas (32-bit
unsigned), the frame alloca has NRoots + 2 slots, the push sequence
stores NRoots << 1 into slot 0, and a pop is emitted before every
return. -/
def placeRoots (Colors : Nat → Int) (MaxPtrNumber : Int) (NAllocas : Nat) :
    Option FrameEmission :=
  if maxColorOf Colors MaxPtrNumber ≠ -1 ∨ NAllocas ≠ 0 then
    some { NRoots := ((maxColorOf Colors MaxPtrNumber + 1).toNat + NAllocas) % 2 ^ 32
           numSlots :=
             (((maxColorOf Colors MaxPtrNumber + 1).toNat + NAllocas) % 2 ^ 32 + 2) % 2 ^ 32
           push := pushGCFrame (((maxColorOf Colors MaxPtrNumber + 1).toNat + NAllocas) % 2 ^ 32)
           popsBeforeEachReturn := true }
  else none

/-- The root-placement phase run on a colored state: ColorRoots feeds
PlaceRootsAndUpdateCalls, as in runOnFunction (source lines 1472-1476). -/
def runRootPlacement (S : CState) (NAllocas : Nat) : Option FrameEmission :=
  placeRoots (colorRoots S) S.MaxPtrNumber NAllocas

/-- Claim C5: whenever a GC frame is emitted, the root count is
NRoots = MaxColor + 1 + NAllocas, the frame alloca has NRoots + 2 slots,
and the push sequence stores NRoots << 1 into frame slot 0 (stated below
the 32-bit overflow threshold, where the unsigned arithmetic of the
source is exact). -/
theorem placeRoots_frame_shape (Colors : Nat → Int) (MaxPtrNumber : Int)
    (NAllocas : Nat) (frame : FrameEmission)
    (hemit : placeRoots Colors MaxPtrNumber NAllocas = some frame)
    (hsmall : (maxColorOf Colors MaxPtrNumber + 1).toNat + NAllocas + 2 < 2 ^ 31) :
    frame.NRoots = (maxColorOf Colors MaxPtrNumber + 1).toNat + NAllocas ∧
    frame.numSlots = frame.NRoots + 2 ∧
    frame.push.slot0Value = frame.NRoots <<< 1 := by
  unfold placeRoots at hemit
  by_cases hc : maxColorOf Colors MaxPtrNumber ≠ -1 ∨ NAllocas ≠ 0
  · rw [if_pos hc] at hemit
    injection hemit with hemit
    subst hemit
    have h1 : ((maxColorOf Colors MaxPtrNumber + 1).toNat + NAllocas) % 2 ^ 32 =
        (maxColorOf Colors MaxPtrNumber + 1).toNat + NAllocas :=
      Nat.mod_eq_of_lt (by omega)
    refine ⟨h1, ?_, ?_⟩
    · show (((maxColorOf Colors MaxPtrNumber + 1).toNat + NAllocas) % 2 ^ 32 + 2) % 2 ^ 32 =
        ((maxColorOf Colors MaxPtrNumber + 1).toNat + NAllocas) % 2 ^ 32 + 2
      rw [h1]
      exact Nat.mod_eq_of_lt (by omega)
    · show ((((maxColorOf Colors MaxPtrNumber + 1).toNat + NAllocas) % 2 ^ 32) <<< 1) % 2 ^ 32 =
        (((maxColorOf Colors MaxPtrNumber + 1).toNat + NAllocas) % 2 ^ 32) <<< 1
      rw [h1, Nat.shiftLeft_eq]
      exact Nat.mod_eq_of_lt (by omega)
  · rw [if_neg hc] at hemit
    exact Option.noConfusion hemit

/-- Witness for claim C5: no colored identifiers and one alloca give a
frame with one root, three slots, and 2 stored into slot 0. -/
theorem placeRoots_frame_shape_witness :
    ({ NRoots := 1, numSlots := 3, push := ⟨2, true, true⟩,
       popsBeforeEachReturn := true } : FrameEmission).NRoots =
      (maxColorOf (fun _ => -1) (-1) + 1).toNat + 1 ∧
    ({ NRoots := 1, numSlots := 3, push := ⟨2, true, true⟩,
       popsBeforeEachReturn := true } : FrameEmission).numSlots =
      ({ NRoots := 1, numSlots := 3, push := ⟨2, true, true⟩,
         popsBeforeEachReturn := true } : FrameEmission).NRoots + 2 ∧
    ({ NRoots := 1, numSlots := 3, push := ⟨2, true, true⟩,
       popsBeforeEachReturn := true } : FrameEmission).push.slot0Value =
      ({ NRoots := 1, numSlots := 3, push := ⟨2, true, true⟩,
         popsBeforeEachReturn := true } : FrameEmission).NRoots <<< 1 :=
  placeRoots_frame_shape (fun _ => -1) (-1) 1
    { NRoots := 1, numSlots := 3, push := ⟨2, true, true⟩, popsBeforeEachReturn := true }
    (by decide) (by decide)

/-- With no live sets, every interference entry is empty. -/
theorem computeNeighbors_getD_empty (S : CState) (h : S.LiveSets = []) (v : Nat) :
    (computeNeighbors S).getD v ∅ = ∅ := by
  by_cases hv : v < (computeNeighbors S).length
  · rw [computeNeighbors_getD_lt S v hv, h]
    rfl
  · exact List.getD_eq_default _ _ (le_of_not_lt hv)

/-- With no live sets, the pre-assignment loop hands out nothing. -/
theorem preassignRT_of_no_liveSets (S : CState) (h : S.LiveSets = []) :
    preassignRT S = (fun _ => -1, 0) := by
  unfold preassignRT
  refine foldl_preserve (fun acc : (Nat → Int) × Nat => acc = (fun _ => -1, 0)) _ _ _ rfl ?_
  intro acc sp hacc
  rw [h]
  show (ascendingMembers (List.getD [] sp ∅)).foldl _ acc = _
  rw [show (List.getD ([] : List (Finset Nat)) sp ∅) = ∅ from
    List.getD_eq_default _ _ (Nat.zero_le sp)]
  rw [show ascendingMembers ∅ = [] from rfl]
  exact hacc

/-- With no live sets, greedy coloring assigns nothing: every vertex is
skipped because its neighbor entry is empty. -/
theorem colorRoots_of_no_liveSets (S : CState) (h : S.LiveSets = []) (u : Nat) :
    colorRoots S u = -1 := by
  have hpre := preassignRT_of_no_liveSets S h
  have hstep : ∀ (acc : (Nat → Int) × Int) (v : Nat),
      acc.1 = (fun _ => (-1 : Int)) →
      (greedyStep (computeNeighbors S) (preassignRT S).2 acc v).1 =
        fun _ => (-1 : Int) := by
    intro acc v hacc
    unfold greedyStep
    rw [if_neg (by rw [hacc]; simp)]
    rw [if_pos (computeNeighbors_getD_empty S h v)]
    exact hacc
  have hfold := foldl_preserve
    (fun acc : (Nat → Int) × Int => acc.1 = fun _ => (-1 : Int))
    (greedyStep (computeNeighbors S) (preassignRT S).2)
    (peoEmit (computeNeighbors S)
      (((computeNeighbors S).length + 2) * ((computeNeighbors S).length + 2) *
        ((computeNeighbors S).length + 2))
      ((List.range (computeNeighbors S).length).map (fun i => ⟨false, 0, i⟩))
      [(List.range (computeNeighbors S).length).map (fun i => (i : Int))])
    ((preassignRT S).1, -1) (by rw [hpre]) hstep
  unfold colorRoots
  rw [hfold]

/-- Claim C6 (amended): a function state with zero safepoints and no
unpromoted tracked allocas gets no GC frame, hence no push and no pop. -/
theorem no_safepoints_no_allocas_no_frame (S : CState) (h : S.LiveSets = []) :
    runRootPlacement S 0 = none := by
  unfold runRootPlacement placeRoots
  have hmax : maxColorOf (colorRoots S) S.MaxPtrNumber = -1 := by
    unfold maxColorOf
    refine foldl_preserve (fun m : Int => m = -1) _ _ _ rfl ?_
    intro m i hm
    rw [colorRoots_of_no_liveSets S h i, hm]
    norm_num
  have hcond : ¬(maxColorOf (colorRoots S) S.MaxPtrNumber ≠ -1 ∨ (0 : Nat) ≠ 0) := by
    rw [hmax]
    simp
  rw [if_neg hcond]

/-- Witness for claim C6 (amended) at a concrete empty state. -/
theorem no_safepoints_no_allocas_no_frame_witness :
    runRootPlacement ⟨-1, [], []⟩ 0 = none :=
  no_safepoints_no_allocas_no_frame ⟨-1, [], []⟩ rfl

/-- Claim C6 counterexample: a function state with zero safepoints but one
unpromoted tracked alloca still receives a GC frame: one root, three
slots, a push sequence storing 2 into slot 0, and pops before returns. -/
theorem no_safepoints_frame_counterexample :
    runRootPlacement ⟨-1, [], []⟩ 1 =
      some { NRoots := 1, numSlots := 3,
             push := { slot0Value := 2, savesPrevTopToSlot1 := true,
                       publishesFrame := true },
             popsBeforeEachReturn := true } := by
  decide

/-! ## NoteDef (local scan def processing) and its SSA assertion -/

/-- The per-block local-scan state mutated by NoteDef. -/
structure LocalBBState where
  Defs : Finset Nat
  UpExposedUses : Finset Nat
  UpExposedUsesUnrooted : Finset Nat
  DownExposedUnrooted : Finset Nat
  HasSafepoint : Bool

/-- NoteDef (source lines 552-567). The two assertions become fatal
errors: Num must not be -1, and recording a def for an identifier whose
Defs bit is already set aborts with the SSA-violation diagnostic;
abort() terminates the process, so no later phase runs on the function.
Otherwise: set the Defs bit, clear both upward-exposed use bits, mark
DownExposedUnrooted when the block has no safepoint yet, and append the
identifier to LiveIfLiveOut of every safepoint already seen. -/
def noteDef (BBS : LocalBBState) (liveIfLiveOut : Nat → List Int) (Num : Int)
    (SafepointsSoFar : List Nat) :
    Except String (LocalBBState × (Nat → List Int)) :=
  if Num = -1 then Except.error "Num is -1"
  else if Num.toNat ∈ BBS.Defs then
    Except.error "SSA Violation or misnumbering?"
  else
    Except.ok
      ({ BBS with
          Defs := insert Num.toNat BBS.Defs
          UpExposedUses := BBS.UpExposedUses.erase Num.toNat
          UpExposedUsesUnrooted := BBS.UpExposedUsesUnrooted.erase Num.toNat
          DownExposedUnrooted :=
            if BBS.HasSafepoint then BBS.DownExposedUnrooted
            else insert Num.toNat BBS.DownExposedUnrooted },
       fun sp => if sp ∈ SafepointsSoFar then liveIfLiveOut sp ++ [Num]
                 else liveIfLiveOut sp)

/-- Claim C9 counterexample: NoteDef checks only the Defs bitset of the
block receiving the def. With identifier 0 already defined in a different
block (a block state whose Defs holds 0), recording a def for 0 in the
current block, whose own Defs bit for 0 is clear, passes the assertion
and returns normally, so the pass continues rather than aborting on this
cross-block SSA violation. -/
theorem noteDef_cross_block_counterexample :
    0 ∈ ((⟨{0}, ∅, ∅, ∅, false⟩ : LocalBBState)).Defs ∧
    ∃ r, noteDef ⟨∅, ∅, ∅, ∅, false⟩ (fun _ => []) 0 [] = Except.ok r := by
  constructor
  · decide
  · exact ⟨_, rfl⟩

/-- Claim C9 (amended): recording a def for an identifier whose Defs bit
is already set in the same block that receives the def terminates with
the fatal SSA-violation diagnostic, so the pass never continues to later
phases on that function; a Defs bit set only in a different block is not
inspected by NoteDef. -/
theorem noteDef_ssa_violation_aborts (BBS : LocalBBState)
    (liveIfLiveOut : Nat → List Int) (Num : Int) (SafepointsSoFar : List Nat)
    (hpos : 0 ≤ Num) (hset : Num.toNat ∈ BBS.Defs) :
    noteDef BBS liveIfLiveOut Num SafepointsSoFar =
      Except.error "SSA Violation or misnumbering?" := by
  unfold noteDef
  rw [if_neg (by omega), if_pos hset]

/-- Witness for claim C9 (amended): a block that already holds identifier
0 in its own Defs makes NoteDef abort. -/
theorem noteDef_ssa_violation_aborts_witness :
    noteDef ⟨{0}, ∅, ∅, ∅, false⟩ (fun _ => []) 0 [] =
      Except.error "SSA Violation or misnumbering?" :=
  noteDef_ssa_violation_aborts ⟨{0}, ∅, ∅, ∅, false⟩ (fun _ => []) 0 []
    (by decide) (by decide)

/-! ## CleanupIR: JLCALL lowering and the scratch argument-array alloca -/

/-- A call as seen by the CleanupIR loop: either a call with the JLCALL
or JLCALL_F calling convention (carrying its argument-operand count) or
any other call. -/
inductive CleanupCall where
  | jlcall (isF : Bool) (nargs : Nat)
  | otherCall
deriving DecidableEq

/-- Whether the call carries one of the two JLCALL calling
conventions. -/
def isJLCall : CleanupCall → Bool
  | .jlcall _ _ => true
  | .otherCall => false

/-- nframeargs = nargs - (CC == JLCALL_F_CC), computed in size_t
arithmetic (source line 1180). -/
def nframeargs : CleanupCall → Nat
  | .jlcall isF nargs => (nargs + 2 ^ 64 - (if isF then 1 else 0)) % 2 ^ 64
  | .otherCall => 0

/-- The replacement-call operands built for a JLCALL (source lines
1192-1195): the argument-array operand is the null pointer constant
exactly when nframeargs is zero (otherwise the scratch Frame alloca), and
the argument count is nframeargs as a 32-bit constant. -/
structure JLCallLowering where
  argArrayIsNull : Bool
  argCount : Nat
deriving DecidableEq

/-- Lowering of one JLCALL by CleanupIR. -/
def lowerJLCall (c : CleanupCall) : JLCallLowering :=
  { argArrayIsNull := decide (nframeargs c = 0)
    argCount := nframeargs c % 2 ^ 32 }

/-- The running maximum of frame-argument counts over the calls of the
function (source lines 1119 and 1185). -/
def maxframeargs (calls : List CleanupCall) : Nat :=
  calls.foldl (fun acc c => if isJLCall c then max acc (nframeargs c) else acc) 0

/-- Whether CleanupIR erases the scratch argument-array alloca created at
function entry (source lines 1232-1234): the alloca exists only when the
canonical tracked type is known, and it is erased when maxframeargs
stayed zero. -/
def frameErased (hasPrjlvalue : Bool) (calls : List CleanupCall) : Bool :=
  hasPrjlvalue && decide (maxframeargs calls = 0)

theorem maxframeargs_zero (calls : List CleanupCall)
    (hall : ∀ c ∈ calls, isJLCall c = true → nframeargs c = 0) :
    maxframeargs calls = 0 := by
  unfold maxframeargs
  induction calls with
  | nil => rfl
  | cons c l ih =>
    rw [List.foldl_cons]
    have hl : ∀ c2 ∈ l, isJLCall c2 = true → nframeargs c2 = 0 :=
      fun c2 hc2 => hall c2 (List.mem_cons_of_mem c hc2)
    by_cases hc : isJLCall c = true
    · rw [if_pos hc, hall c (List.mem_cons_self c l) hc]
      have hmax : max 0 0 = 0 := rfl
      rw [hmax]
      exact ih hl
    · rw [if_neg hc]
      exact ih hl

/-- Claim C10: a JLCALL with zero frame arguments is lowered with a null
argument-array operand and argument count 0; and when no JLCALL call of
the function has any frame arguments, the scratch argument-array alloca
created at function entry is erased. -/
theorem cleanupIR_jlcall_zero_args (calls : List CleanupCall) (c : CleanupCall)
    (h0 : nframeargs c = 0)
    (hall : ∀ c2 ∈ calls, isJLCall c2 = true → nframeargs c2 = 0) :
    lowerJLCall c = { argArrayIsNull := true, argCount := 0 } ∧
    frameErased true calls = true := by
  constructor
  · unfold lowerJLCall
    rw [h0]
    rfl
  · unfold frameErased
    rw [maxframeargs_zero calls hall]
    rfl

/-- Witness for claim C10: a JLCALL_F with a single (function) argument
has zero frame arguments; together with a non-JLCALL call the scratch
alloca is erased. -/
theorem cleanupIR_jlcall_zero_args_witness :
    lowerJLCall (.jlcall true 1) = { argArrayIsNull := true, argCount := 0 } ∧
    frameErased true [.jlcall true 1, .otherCall] = true :=
  cleanupIR_jlcall_zero_args [.jlcall true 1, .otherCall] (.jlcall true 1)
    (by decide) (by decide)

/-! ## Base finding and numbering (FindBaseValue, Number, lifting) -/

/-- Types of IR values as the numbering layer distinguishes them: a
pointer type with its address space, the two-field union representation
whose first field is a special pointer (isUnionRep) with that field's
address space, or anything else. -/
inductive VTy where
  | ptr (addrsp : Nat)
  | unionRep (addrsp : Nat)
  | otherTy
deriving DecidableEq

/-- IR values as the numbering layer inspects them. Leaves carry an
identity tag and their type; selects keep their two arms because
LiftSelect inspects them; the incoming edges of phis and the condition of
selects play no role in numbering. liftedSelect and liftedPhi are the
fresh gclift instructions created by LiftSelect and LiftPhi (both typed
as tracked pointers); nullPtr is a ConstantPointerNull of its address
space. -/
inductive Val where
  | bitCast (op : Val)
  | gep (op : Val)
  | addrCast (tgt : Nat) (op : Val)
  | extractVal (op : Val)
  | loadInst (id : Nat) (ty : VTy)
  | callVal (id : Nat) (ty : VTy)
  | argVal (id : Nat) (ty : VTy)
  | constVal (id : Nat) (ty : VTy)
  | allocaVal (id : Nat) (ty : VTy)
  | selectVal (id : Nat) (ty : VTy) (tv fv : Val)
  | phiVal (id : Nat) (ty : VTy)
  | liftedSelect (orig : Val)
  | liftedPhi (orig : Val)
  | nullPtr (addrsp : Nat)
deriving DecidableEq

/-- The type of a value. Bitcasts and GEPs preserve the address space; an
address-space cast produces a pointer in its target space; extracting
from a union representation yields its special pointer field. -/
def typeOf : Val → VTy
  | .bitCast op => typeOf op
  | .gep op => typeOf op
  | .addrCast tgt _ => .ptr tgt
  | .extractVal op =>
    match typeOf op with
    | .unionRep a => .ptr a
    | _ => .otherTy
  | .loadInst _ ty => ty
  | .callVal _ ty => ty
  | .argVal _ ty => ty
  | .constVal _ ty => ty
  | .allocaVal _ ty => ty
  | .selectVal _ ty _ _ => ty
  | .phiVal _ ty => ty
  | .liftedSelect _ => .ptr ASTracked
  | .liftedPhi _ => .ptr ASTracked
  | .nullPtr a => .ptr a

/-- Whether an address space lies in the special range. -/
def isSpecialAS (a : Nat) : Bool := decide (ASFirstSpecial ≤ a ∧ a ≤ ASLastSpecial)

/-- isSpecialPtr on a type. -/
def isSpecialPtrTy : VTy → Bool
  | .ptr a => isSpecialAS a
  | _ => false

/-- isUnionRep on a type. -/
def isUnionRepTy : VTy → Bool
  | .unionRep a => isSpecialAS a
  | _ => false

/-- getValueAddrSpace: the address space of the pointer type. -/
def addrSpaceOf (v : Val) : Nat :=
  match typeOf v with
  | .ptr a => a
  | _ => 0

/-- Whether the type of the value is a pointer type. -/
def isPtrTy (v : Val) : Bool :=
  match typeOf v with
  | .ptr _ => true
  | _ => false

/-- The cache check at the top of each FindBaseValue iteration (source
lines 384-394): pointer-typed values stop at an AllPtrNumbering entry;
non-pointer values consult AllVectorNumbering instead, which this
pointer-level model keeps empty, so they continue. -/
def cacheStop (cache : Val → Option Int) (useCache : Bool) (v : Val) : Bool :=
  useCache && isPtrTy v && (cache v).isSome

/-- FindBaseValue (source lines 381-420): walk backward through bitcasts,
GEPs, address-space casts whose operand is not in address space 0, and
extractions from a union representation, stopping early at a cached
pointer value; every other value is a base. -/
def findBaseValue (cache : Val → Option Int) (useCache : Bool) : Val → Val
  | .bitCast op =>
    if cacheStop cache useCache (.bitCast op) then .bitCast op
    else findBaseValue cache useCache op
  | .gep op =>
    if cacheStop cache useCache (.gep op) then .gep op
    else findBaseValue cache useCache op
  | .addrCast tgt op =>
    if cacheStop cache useCache (.addrCast tgt op) then .addrCast tgt op
    else if addrSpaceOf op = 0 then .addrCast tgt op
    else findBaseValue cache useCache op
  | .extractVal op =>
    if cacheStop cache useCache (.extractVal op) then .extractVal op
    else if isUnionRepTy (typeOf op) then findBaseValue cache useCache op
    else .extractVal op
  | v => v

/-- The numbering state: the fields of State used by Number and the
lifting helpers. -/
structure NState where
  MaxPtrNumber : Int
  AllPtrNumbering : Val → Option Int
  PtrNumbering : Val → Option Int
  ReversePtrNumbering : Int → Option Val

/-- The freshly constructed State (MaxPtrNumber = -1, empty maps). -/
def NState.initial : NState :=
  { MaxPtrNumber := -1
    AllPtrNumbering := fun _ => none
    PtrNumbering := fun _ => none
    ReversePtrNumbering := fun _ => none }

/-- Point update of a value-keyed map. -/
def mapUpd (f : Val → Option Int) (k : Val) (n : Int) : Val → Option Int :=
  fun v => if v = k then some n else f v

/-- MaybeExtractUnion (source lines 422-427): wrap a union-typed value in
an extraction of its pointer field. -/
def maybeExtractUnion (v : Val) : Val :=
  if isUnionRepTy (typeOf v) then .extractVal v else v

/-- LiftSelect (source lines 429-447): find the bases of both arms
without the cache, extract union fields, replace a non-tracked true base
by null in the false base's pointer type and a non-tracked false base by
null in the (possibly replaced) true base's type, give up with -1 when
the true base is still not tracked, otherwise create the lifted select,
number it freshly, and cache the number under the lifted select (also in
PtrNumbering and the reverse map) and under the original select. -/
def liftSelect (S : NState) (si tv fv : Val) : Int × NState :=
  let TrueBase0 := maybeExtractUnion (findBaseValue S.AllPtrNumbering false tv)
  let FalseBase0 := maybeExtractUnion (findBaseValue S.AllPtrNumbering false fv)
  let TrueBase := if addrSpaceOf TrueBase0 ≠ ASTracked
    then Val.nullPtr (addrSpaceOf FalseBase0) else TrueBase0
  let FalseBase := if addrSpaceOf FalseBase0 ≠ ASTracked
    then Val.nullPtr (addrSpaceOf TrueBase) else FalseBase0
  if addrSpaceOf TrueBase ≠ ASTracked then (-1, S)
  else
    (S.MaxPtrNumber + 1,
     { MaxPtrNumber := S.MaxPtrNumber + 1
       AllPtrNumbering :=
         mapUpd (mapUpd S.AllPtrNumbering (.liftedSelect si) (S.MaxPtrNumber + 1)) si
           (S.MaxPtrNumber + 1)
       PtrNumbering := mapUpd S.PtrNumbering (.liftedSelect si) (S.MaxPtrNumber + 1)
       ReversePtrNumbering := fun m =>
         if m = S.MaxPtrNumber + 1 then some (.liftedSelect si)
         else S.ReversePtrNumbering m })

/-- LiftPhi (source lines 449-466): create the lifted phi (the per-edge
base values it receives are new IR instructions that do not touch the
numbering state), number it freshly, and cache the number under the
lifted phi (also in PtrNumbering and the reverse map) and under the
original phi. -/
def liftPhi (S : NState) (phi : Val) : Int × NState :=
  (S.MaxPtrNumber + 1,
   { MaxPtrNumber := S.MaxPtrNumber + 1
     AllPtrNumbering :=
       mapUpd (mapUpd S.AllPtrNumbering (.liftedPhi phi) (S.MaxPtrNumber + 1)) phi
         (S.MaxPtrNumber + 1)
     PtrNumbering := mapUpd S.PtrNumbering (.liftedPhi phi) (S.MaxPtrNumber + 1)
     ReversePtrNumbering := fun m =>
       if m = S.MaxPtrNumber + 1 then some (.liftedPhi phi)
       else S.ReversePtrNumbering m })

/-- isa Constant (ConstantPointerNull included). -/
def isConstantVal : Val → Bool
  | .constVal _ _ => true
  | .nullPtr _ => true
  | _ => false

/-- isa Argument. -/
def isArgumentVal : Val → Bool
  | .argVal _ _ => true
  | _ => false

/-- isa AllocaInst. -/
def isAllocaVal : Val → Bool
  | .allocaVal _ _ => true
  | _ => false

/-- isa AddrSpaceCastInst. -/
def isAddrCastVal : Val → Bool
  | .addrCast _ _ => true
  | _ => false

/-- The shared caching line of Number (source line 499):
PtrNumbering[CurrentV] = AllPtrNumbering[CurrentV] = AllPtrNumbering[V] =
Number. -/
def assignCaches (S : NState) (curr orig : Val) (n : Int) : NState :=
  { S with
      AllPtrNumbering := mapUpd (mapUpd S.AllPtrNumbering curr n) orig n
      PtrNumbering := mapUpd S.PtrNumbering curr n }

/-- The fresh-number branch of Number: bump MaxPtrNumber, record the
reverse mapping for the base, and run the shared caching line. -/
def freshAssign (S : NState) (curr orig : Val) : NState :=
  assignCaches
    { S with
        MaxPtrNumber := S.MaxPtrNumber + 1
        ReversePtrNumbering := fun m =>
          if m = S.MaxPtrNumber + 1 then some curr else S.ReversePtrNumbering m }
    curr orig (S.MaxPtrNumber + 1)

/-- The branch dispatch of Number after the base has been found (source
lines 471-500): return a cached base's number unchanged; -1 (with the
caching line) for constants, arguments, and non-tracked allocas and
address-space casts; lifting for non-tracked selects and phis, caching
the result under the original query; the unhandled-extraction abort
(modelled as none); and a fresh number for the remaining tracked or
union-typed bases. -/
def numberAux (S : NState) (CurrentV orig : Val) : Option Int × NState :=
  match S.AllPtrNumbering CurrentV with
  | some n => (some n, S)
  | none =>
    if isConstantVal CurrentV || isArgumentVal CurrentV ||
        ((isAllocaVal CurrentV || isAddrCastVal CurrentV) &&
          !(decide (addrSpaceOf CurrentV = ASTracked))) then
      (some (-1), assignCaches S CurrentV orig (-1))
    else
      match CurrentV with
      | .selectVal i ty tv fv =>
        if addrSpaceOf (.selectVal i ty tv fv) ≠ ASTracked then
          (some (liftSelect S (.selectVal i ty tv fv) tv fv).1,
           { (liftSelect S (.selectVal i ty tv fv) tv fv).2 with
               AllPtrNumbering :=
                 mapUpd (liftSelect S (.selectVal i ty tv fv) tv fv).2.AllPtrNumbering
                   orig (liftSelect S (.selectVal i ty tv fv) tv fv).1 })
        else (some (S.MaxPtrNumber + 1), freshAssign S (.selectVal i ty tv fv) orig)
      | .phiVal i ty =>
        if addrSpaceOf (.phiVal i ty) ≠ ASTracked then
          (some (liftPhi S (.phiVal i ty)).1,
           { (liftPhi S (.phiVal i ty)).2 with
               AllPtrNumbering :=
                 mapUpd (liftPhi S (.phiVal i ty)).2.AllPtrNumbering orig
                   (liftPhi S (.phiVal i ty)).1 })
        else (some (S.MaxPtrNumber + 1), freshAssign S (.phiVal i ty) orig)
      | .extractVal op =>
        if isUnionRepTy (typeOf (.extractVal op)) then
          (some (S.MaxPtrNumber + 1), freshAssign S (.extractVal op) orig)
        else (none, S)
      | c => (some (S.MaxPtrNumber + 1), freshAssign S c orig)

/-- Number (source lines 468-501): find the base through the cache, then
dispatch. -/
def number (S : NState) (v : Val) : Option Int × NState :=
  numberAux S (findBaseValue S.AllPtrNumbering true v) v

/-! ### Base invariance along bitcast/GEP chains -/

/-- One link of a bitcast/GEP chain. -/
inductive ChainStep where
  | bc
  | gepStep
deriving DecidableEq

/-- Apply a chain of bitcasts and GEPs above a value (outermost link
first). -/
def chainApply : List ChainStep → Val → Val
  | [], v => v
  | .bc :: l, v => .bitCast (chainApply l v)
  | .gepStep :: l, v => .gep (chainApply l v)

/-- The strict wrapper nodes of a chain, outermost first (the base value
itself is not included). -/
def chainNodes : List ChainStep → Val → List Val
  | [], _ => []
  | s :: l, v => chainApply (s :: l) v :: chainNodes l v

theorem isPtrTy_of_special (v : Val) (h : isSpecialPtrTy (typeOf v) = true) :
    isPtrTy v = true := by
  unfold isPtrTy
  unfold isSpecialPtrTy at h
  rcases hty : typeOf v with a | a | _
  · rfl
  · rw [hty] at h
    exact Bool.noConfusion h
  · rw [hty] at h
    exact Bool.noConfusion h

theorem findBaseValue_bitCast_eq (cache : Val → Option Int) (uc : Bool) (op : Val) :
    findBaseValue cache uc (.bitCast op) =
      if cacheStop cache uc (.bitCast op) then .bitCast op
      else findBaseValue cache uc op := rfl

theorem findBaseValue_gep_eq (cache : Val → Option Int) (uc : Bool) (op : Val) :
    findBaseValue cache uc (.gep op) =
      if cacheStop cache uc (.gep op) then .gep op
      else findBaseValue cache uc op := rfl

theorem findBaseValue_of_cached (cache : Val → Option Int) (v : Val) (n : Int)
    (hc : cache v = some n) (hp : isPtrTy v = true) :
    findBaseValue cache true v = v := by
  have hstop : cacheStop cache true v = true := by
    unfold cacheStop
    rw [hp, hc]
    rfl
  cases v <;> simp only [findBaseValue, hstop, if_true]

theorem findBaseValue_chain (cache : Val → Option Int) (ch : List ChainStep) (v : Val)
    (hfresh : ∀ w ∈ chainNodes ch v, cache w = none) :
    findBaseValue cache true (chainApply ch v) = findBaseValue cache true v := by
  induction ch with
  | nil => rfl
  | cons s l ih =>
    have hf2 : ∀ w ∈ chainNodes l v, cache w = none :=
      fun w hw => hfresh w (List.mem_cons_of_mem _ hw)
    have hW : cache (chainApply (s :: l) v) = none :=
      hfresh _ (List.mem_cons_self _ _)
    cases s with
    | bc =>
      have hns : ¬(cacheStop cache true (Val.bitCast (chainApply l v)) = true) := by
        unfold cacheStop
        rw [show cache (Val.bitCast (chainApply l v)) = none from hW]
        simp
      show findBaseValue cache true (Val.bitCast (chainApply l v)) = _
      rw [findBaseValue_bitCast_eq, if_neg hns]
      exact ih hf2
    | gepStep =>
      have hns : ¬(cacheStop cache true (Val.gep (chainApply l v)) = true) := by
        unfold cacheStop
        rw [show cache (Val.gep (chainApply l v)) = none from hW]
        simp
      show findBaseValue cache true (Val.gep (chainApply l v)) = _
      rw [findBaseValue_gep_eq, if_neg hns]
      exact ih hf2

theorem assignCaches_orig (S : NState) (curr orig : Val) (n : Int) :
    (assignCaches S curr orig n).AllPtrNumbering orig = some n := by
  unfold assignCaches mapUpd
  simp

theorem freshAssign_orig (S : NState) (curr orig : Val) :
    (freshAssign S curr orig).AllPtrNumbering orig = some (S.MaxPtrNumber + 1) :=
  assignCaches_orig _ curr orig _

/-- Every successful call of Number either found the base already cached
and left the state untouched, or cached the returned identifier under the
queried value itself. -/
theorem number_caches (S : NState) (v : Val) (n : Int) (S2 : NState)
    (h : number S v = (some n, S2)) :
    S2.AllPtrNumbering v = some n ∨
    (S2 = S ∧ S.AllPtrNumbering (findBaseValue S.AllPtrNumbering true v) = some n) := by
  unfold number numberAux at h
  split at h
  case _ m heq =>
    rw [Prod.mk.injEq] at h
    obtain ⟨h1, h2⟩ := h
    injection h1 with h1
    subst h1
    exact Or.inr ⟨h2.symm, heq⟩
  case _ heq =>
    split at h
    case isTrue hcond =>
      rw [Prod.mk.injEq] at h
      obtain ⟨h1, h2⟩ := h
      injection h1 with h1
      subst h1
      rw [← h2]
      exact Or.inl (assignCaches_orig S _ v (-1))
    case isFalse hcond =>
      split at h
      case _ i ty tv fv =>
        split at h
        case isTrue hts =>
          rw [Prod.mk.injEq] at h
          obtain ⟨h1, h2⟩ := h
          injection h1 with h1
          subst h1
          rw [← h2]
          left
          show mapUpd _ v _ v = _
          unfold mapUpd
          simp
        case isFalse hts =>
          rw [Prod.mk.injEq] at h
          obtain ⟨h1, h2⟩ := h
          injection h1 with h1
          subst h1
          rw [← h2]
          exact Or.inl (freshAssign_orig S _ v)
      case _ i ty =>
        split at h
        case isTrue hts =>
          rw [Prod.mk.injEq] at h
          obtain ⟨h1, h2⟩ := h
          injection h1 with h1
          subst h1
          rw [← h2]
          left
          show mapUpd _ v _ v = _
          unfold mapUpd
          simp
        case isFalse hts =>
          rw [Prod.mk.injEq] at h
          obtain ⟨h1, h2⟩ := h
          injection h1 with h1
          subst h1
          rw [← h2]
          exact Or.inl (freshAssign_orig S _ v)
      case _ op =>
        split at h
        case isTrue hts =>
          rw [Prod.mk.injEq] at h
          obtain ⟨h1, h2⟩ := h
          injection h1 with h1
          subst h1
          rw [← h2]
          exact Or.inl (freshAssign_orig S _ v)
        case isFalse hts =>
          rw [Prod.mk.injEq] at h
          obtain ⟨h1, h2⟩ := h
          exact Option.noConfusion h1
      case _ c hne1 hne2 hne3 =>
        rw [Prod.mk.injEq] at h
        obtain ⟨h1, h2⟩ := h
        injection h1 with h1
        subst h1
        rw [← h2]
        exact Or.inl (freshAssign_orig S _ v)

/-- Claim C7: base invariance of numbering. If Number assigns identifier
n to a value v of special pointer type, then numbering any chain of
bitcasts and GEPs built over v in the resulting state (the chain nodes
being fresh, hence uncached) yields the same identifier n. -/
theorem number_chain_invariant (S : NState) (v : Val) (n : Int) (S2 : NState)
    (ch : List ChainStep)
    (hsp : isSpecialPtrTy (typeOf v) = true)
    (hnum : number S v = (some n, S2))
    (hfresh : ∀ w ∈ chainNodes ch v, S2.AllPtrNumbering w = none) :
    (number S2 (chainApply ch v)).1 = some n := by
  have hbase : S2.AllPtrNumbering (findBaseValue S2.AllPtrNumbering true v) = some n := by
    rcases number_caches S v n S2 hnum with hcv | ⟨hS, hb⟩
    · rw [findBaseValue_of_cached S2.AllPtrNumbering v n hcv (isPtrTy_of_special v hsp)]
      exact hcv
    · rw [hS]
      exact hb
  unfold number
  rw [findBaseValue_chain S2.AllPtrNumbering ch v hfresh]
  unfold numberAux
  rw [hbase]

/-- Witness for claim C7: number a fresh tracked load (identifier 0),
then number a bitcast of it in the resulting state: same identifier. -/
theorem number_chain_invariant_witness :
    (number (number NState.initial (Val.loadInst 0 (.ptr ASTracked))).2
      (chainApply [.bc] (Val.loadInst 0 (.ptr ASTracked)))).1 = some 0 :=
  number_chain_invariant NState.initial (Val.loadInst 0 (.ptr ASTracked)) 0
    (number NState.initial (Val.loadInst 0 (.ptr ASTracked))).2 [.bc]
    (by decide) rfl
    (by
      intro w hw
      have hnodes : chainNodes [ChainStep.bc] (Val.loadInst 0 (.ptr ASTracked)) =
          [Val.bitCast (Val.loadInst 0 (.ptr ASTracked))] := rfl
      rw [hnodes] at hw
      rw [List.mem_singleton.mp hw]
      rfl)

end LateGC
